import Mathlib

/-!
Verification of the cookie-bakery library: a shallow embedding of
`src/cookie.rs`, `src/parse.rs`, `src/expires.rs`, `src/same_site.rs` and
`src/builder.rs`, together with theorems settling the specification claims.

Strings are modelled as lists of characters (`Str`); Rust `&str` slicing,
`split`, `trim` and `find` are embedded as structurally recursive functions
so that every definition evaluates inside the kernel.
-/

/-- Rust string contents, modelled as a list of characters. -/
abbrev Str := List Char

/-- Coerce a Lean string literal to the `Str` model. -/
def str (s : String) : Str := s.data

/-- Whitespace test used by Rust `str::trim` (ASCII subset; every character
appearing in this development is ASCII). -/
def isWs (c : Char) : Bool := c = ' ' || c = '\t' || c = '\n' || c = '\r'

/-- Decimal-digit test, embedding Rust `char::is_digit(10)`. -/
def isDigitCh (c : Char) : Bool := '0' ≤ c && c ≤ '9'

/-- Left trim: drop leading whitespace, as in Rust `str::trim_start`. -/
def trimL (s : Str) : Str := s.dropWhile isWs

/-- Right trim: drop trailing whitespace, as in Rust `str::trim_end`. -/
def trimR (s : Str) : Str := (s.reverse.dropWhile isWs).reverse

/-- Rust `str::trim`: drop whitespace from both ends. -/
def trim (s : Str) : Str := trimR (trimL s)

/-- Rust `str::split(sep)`: split on every occurrence of `sep`, keeping
empty pieces; the result is always non-empty. -/
def splitChar (sep : Char) : Str → List Str
  | [] => [[]]
  | c :: cs =>
    if c = sep then [] :: splitChar sep cs
    else
      match splitChar sep cs with
      | t :: ts => (c :: t) :: ts
      | [] => [[c]]

/-- Rust `s.find(sep)` followed by slicing `s[..idx]` / `s[idx+1..]`:
split at the first occurrence of `sep`, or `none` if absent. -/
def splitFirst (sep : Char) : Str → Option (Str × Str)
  | [] => none
  | c :: cs =>
    if c = sep then some ([], cs)
    else (splitFirst sep cs).map (fun p => (c :: p.1, p.2))

/-- Prefix test on character lists (Rust `str::starts_with` on a literal). -/
def startsWithStr (pat s : Str) : Bool :=
  match pat, s with
  | [], _ => true
  | _ :: _, [] => false
  | p :: ps, c :: cs => p = c && startsWithStr ps cs

/-- Rust `s.split(pat).next()` for a (non-empty) substring pattern: the text
before the first occurrence of `pat`, or all of `s` if `pat` never occurs. -/
def beforeSubstr (pat : Str) : Str → Str
  | [] => []
  | c :: cs => if startsWithStr pat (c :: cs) then [] else c :: beforeSubstr pat cs

/-- Substring containment test (used only to state serialization facts). -/
def containsSub (pat : Str) : Str → Bool
  | [] => startsWithStr pat []
  | c :: cs => startsWithStr pat (c :: cs) || containsSub pat cs

/-- ASCII lower-casing of one character. -/
def asciiLower (c : Char) : Char :=
  if 'A' ≤ c && c ≤ 'Z' then Char.ofNat (c.toNat + 32) else c

/-- Rust `str::eq_ignore_ascii_case`. -/
def eqIgnoreCase (a b : Str) : Bool :=
  a.map asciiLower == b.map asciiLower

/-- The decimal digit character for a value below ten. -/
def digitChar : Nat → Char
  | 0 => '0' | 1 => '1' | 2 => '2' | 3 => '3' | 4 => '4'
  | 5 => '5' | 6 => '6' | 7 => '7' | 8 => '8' | _ => '9'

/-- Fuel-driven decimal printer (the fuel always exceeds the argument,
so the recursion is total and kernel-reducible). -/
def natReprAux : Nat → Nat → Str
  | 0, _ => []
  | fuel + 1, n =>
    if n < 10 then [digitChar n]
    else natReprAux fuel (n / 10) ++ [digitChar (n % 10)]

/-- Decimal rendering of a natural number, as Rust `write!("{}", n)`. -/
def natRepr (n : Nat) : Str := natReprAux (n + 1) n

/-- Numeric value of a digit string (big-endian fold). -/
def digitsVal (s : Str) : Nat := s.foldl (fun a c => 10 * a + (c.toNat - 48)) 0

/-- Largest `u64` value. -/
def u64Max : Nat := 18446744073709551615

/-- Rust `str::parse::<u64>()` restricted to all-digit inputs (the caller in
`parse.rs` has already checked every character is a decimal digit): fails on
the empty string and on overflow past `u64::MAX`. -/
def parseU64 (s : Str) : Option Nat :=
  if s = [] then none
  else if digitsVal s ≤ u64Max then some (digitsVal s) else none

/-! ## Date model: `chrono::NaiveDateTime` and `parse_from_str`, restricted
to the four strftime formats appearing in `parse.rs`. -/

/-- A parsed UTC date-time (`chrono::DateTime<Utc>` always carries a zero
offset here, so the naive fields determine the instant). -/
structure NaiveDateTime where
  year : Int
  month : Nat
  day : Nat
  hour : Nat
  minute : Nat
  second : Nat
deriving DecidableEq, Repr

/-- Leap-year test of the proleptic Gregorian calendar. -/
def isLeap (y : Int) : Bool := y % 4 == 0 && (y % 100 != 0 || y % 400 == 0)

/-- Number of days in a month. -/
def daysInMonth (y : Int) (m : Nat) : Nat :=
  match m with
  | 1 => 31 | 2 => if isLeap y then 29 else 28 | 3 => 31 | 4 => 30
  | 5 => 31 | 6 => 30 | 7 => 31 | 8 => 31 | 9 => 30 | 10 => 31
  | 11 => 30 | 12 => 31 | _ => 0

/-- Days since 1970-01-01 of a civil date (Hinnant's `days_from_civil`). -/
def daysFromCivil (y : Int) (m d : Nat) : Int :=
  let yy : Int := if m ≤ 2 then y - 1 else y
  let era : Int := Int.fdiv yy 400
  let yoe : Int := yy - era * 400
  let mp : Int := (Int.ofNat m + 9) % 12
  let doy : Int := (153 * mp + 2) / 5 + Int.ofNat d - 1
  let doe : Int := yoe * 365 + yoe / 4 - yoe / 100 + doy
  era * 146097 + doe - 719468

/-- Weekday of a civil date, numbered as `chrono`'s
`num_days_from_monday` (Monday = 0 … Sunday = 6). -/
def weekdayOf (y : Int) (m d : Nat) : Nat :=
  ((daysFromCivil y m d + 3) % 7).toNat

/-- Short weekday names in `chrono` order (Monday first). -/
def wdShortNames : List Str :=
  [str "Mon", str "Tue", str "Wed", str "Thu", str "Fri", str "Sat", str "Sun"]

/-- Tails completing the short weekday names to the long ones. -/
def wdLongTails : List Str :=
  [str "day", str "sday", str "nesday", str "rsday", str "day", str "urday", str "day"]

/-- Short month names, `Jan` for month 1 through `Dec` for month 12. -/
def monShortNames : List Str :=
  [str "Jan", str "Feb", str "Mar", str "Apr", str "May", str "Jun",
   str "Jul", str "Aug", str "Sep", str "Oct", str "Nov", str "Dec"]

/-- Case-insensitive prefix test (ASCII), as `chrono`'s scanners use. -/
def ciStartsWith (pat s : Str) : Bool :=
  pat.length ≤ s.length && eqIgnoreCase (s.take pat.length) pat

/-- `chrono` `scan::short_weekday`: match a 3-letter weekday name
case-insensitively, returning its Monday-based number. -/
def matchShortWd (s : Str) : Option (Nat × Str) :=
  (List.range 7).foldr
    (fun i acc =>
      if ciStartsWith (wdShortNames.getD i []) s then some (i, s.drop 3) else acc)
    none

/-- `chrono` `scan::short_or_long_weekday`: after the short match, consume
the long-name tail when it is present. -/
def matchLongWd (s : Str) : Option (Nat × Str) :=
  (matchShortWd s).map fun p =>
    let tail := wdLongTails.getD p.1 []
    if ciStartsWith tail p.2 then (p.1, p.2.drop tail.length) else p

/-- `chrono` `scan::short_month0` (shifted to 1-based months). -/
def matchShortMon (s : Str) : Option (Nat × Str) :=
  (List.range 12).foldr
    (fun i acc =>
      if ciStartsWith (monShortNames.getD i []) s then some (i + 1, s.drop 3) else acc)
    none

/-- `chrono` `scan::number(s, 1, maxD)`: consume one to `maxD` leading
digits, maximal munch. -/
def scanNum (maxD : Nat) (s : Str) : Option (Nat × Str) :=
  let digs := (s.takeWhile isDigitCh).take maxD
  if digs = [] then none else some (digitsVal digs, s.drop digs.length)

/-- Unbounded digit scan, for an explicitly signed year. -/
def scanNumAll (s : Str) : Option (Nat × Str) :=
  let digs := s.takeWhile isDigitCh
  if digs = [] then none else some (digitsVal digs, s.drop digs.length)

/-- `chrono` signed-year scan for `%Y`: an explicit sign allows arbitrarily
many digits, otherwise at most four are consumed. (Where `chrono` would
report an `i64` overflow for an absurdly long signed year, this model
instead fails the later year-range check; both reject the input.) -/
def scanYearSigned (s : Str) : Option (Int × Str) :=
  match s with
  | '-' :: rest => (scanNumAll rest).map (fun p => (-(p.1 : Int), p.2))
  | '+' :: rest => (scanNumAll rest).map (fun p => ((p.1 : Int), p.2))
  | _ => (scanNum 4 s).map (fun p => ((p.1 : Int), p.2))

/-- One strftime item of the four formats used in `parse.rs`. -/
inductive FmtItem where
  | lit (cs : Str)
  | sp
  | wdShort
  | wdLong
  | monShort
  | day
  | hour
  | minute
  | second
  | year4
  | year2
deriving DecidableEq, Repr

/-- The fields `chrono::format::Parsed` accumulates for these formats. -/
structure Parsed where
  weekday : Option Nat := none
  day : Option Nat := none
  month : Option Nat := none
  year : Option Int := none
  yearMod100 : Option Nat := none
  hour : Option Nat := none
  minute : Option Nat := none
  second : Option Nat := none
deriving DecidableEq, Repr

/-- Match one item against the input, as `chrono::format::parse` does:
literals match exactly, a whitespace item skips any amount of whitespace,
numerics use maximal munch up to their width. -/
def matchItem (it : FmtItem) (s : Str) (p : Parsed) : Option (Str × Parsed) :=
  match it with
  | .lit cs => if startsWithStr cs s then some (s.drop cs.length, p) else none
  | .sp => some (s.dropWhile isWs, p)
  | .wdShort => (matchShortWd s).map fun q => (q.2, { p with weekday := some q.1 })
  | .wdLong => (matchLongWd s).map fun q => (q.2, { p with weekday := some q.1 })
  | .monShort => (matchShortMon s).map fun q => (q.2, { p with month := some q.1 })
  | .day => (scanNum 2 s).map fun q => (q.2, { p with day := some q.1 })
  | .hour => (scanNum 2 s).map fun q => (q.2, { p with hour := some q.1 })
  | .minute => (scanNum 2 s).map fun q => (q.2, { p with minute := some q.1 })
  | .second => (scanNum 2 s).map fun q => (q.2, { p with second := some q.1 })
  | .year4 => (scanYearSigned s).map fun q => (q.2, { p with year := some q.1 })
  | .year2 => (scanNum 2 s).map fun q => (q.2, { p with yearMod100 := some q.1 })

/-- Run a whole item list over the input. -/
def runItems : List FmtItem → Str → Parsed → Option (Str × Parsed)
  | [], s, p => some (s, p)
  | it :: its, s, p =>
    match matchItem it s p with
    | some (s2, p2) => runItems its s2 p2
    | none => none

/-- Bool-valued validity of a civil date, including `chrono`'s
`NaiveDate` year range. -/
def validYmd (y : Int) (m d : Nat) : Bool :=
  1 ≤ m && m ≤ 12 && 1 ≤ d && d ≤ daysInMonth y m &&
    -262144 ≤ y && y ≤ 262143

/-- `chrono::format::Parsed` resolution to a `NaiveDateTime`: every field
must be determined, the date and time must be valid (leap seconds are not
modelled), and a supplied weekday must match the computed one. -/
def resolveParsed (p : Parsed) : Option NaiveDateTime :=
  match p.day, p.month, p.hour, p.minute, p.second with
  | some d, some mo, some h, some mi, some sec =>
    let yOpt : Option Int :=
      match p.year, p.yearMod100 with
      | some y, _ => some y
      | none, some q => some (if q ≤ 68 then (2000 + q : Int) else (1900 + q : Int))
      | none, none => none
    match yOpt with
    | none => none
    | some y =>
      if validYmd y mo d && h ≤ 23 && mi ≤ 59 && sec ≤ 59 then
        match p.weekday with
        | some w => if weekdayOf y mo d = w then some ⟨y, mo, d, h, mi, sec⟩ else none
        | none => some ⟨y, mo, d, h, mi, sec⟩
      else none
  | _, _, _, _, _ => none

/-- `chrono::NaiveDateTime::parse_from_str`: all items must match and the
whole input must be consumed. -/
def parseFromStr (items : List FmtItem) (s : Str) : Option NaiveDateTime :=
  match runItems items s {} with
  | some (rem, p) => if rem = [] then resolveParsed p else none
  | none => none

/-- Item list of `FMT1 = "%a, %d %b %Y %H:%M:%S GMT"`. -/
def fmt1Items : List FmtItem :=
  [.wdShort, .lit (str ","), .sp, .day, .sp, .monShort, .sp, .year4, .sp,
   .hour, .lit (str ":"), .minute, .lit (str ":"), .second, .sp, .lit (str "GMT")]

/-- Item list of `FMT2 = "%A, %d-%b-%y %H:%M:%S GMT"`. -/
def fmt2Items : List FmtItem :=
  [.wdLong, .lit (str ","), .sp, .day, .lit (str "-"), .monShort, .lit (str "-"),
   .year2, .sp, .hour, .lit (str ":"), .minute, .lit (str ":"), .second, .sp,
   .lit (str "GMT")]

/-- Item list of `FMT3 = "%a, %b %-d %H:%M:%S %-Y"`. -/
def fmt3Items : List FmtItem :=
  [.wdShort, .lit (str ","), .sp, .monShort, .sp, .day, .sp,
   .hour, .lit (str ":"), .minute, .lit (str ":"), .second, .sp, .year4]

/-- Item list of `FMT4 = "%a, %d-%b-%-Y %H:%M:%S GMT"`. -/
def fmt4Items : List FmtItem :=
  [.wdShort, .lit (str ","), .sp, .day, .lit (str "-"), .monShort, .lit (str "-"),
   .year4, .sp, .hour, .lit (str ":"), .minute, .lit (str ":"), .second, .sp,
   .lit (str "GMT")]

/-! ## Cookie data model (`src/cookie.rs`, `src/expires.rs`,
`src/same_site.rs`) -/

/-- `ParseError` from `parse.rs`. -/
inductive ParseError where
  | MissingPair
  | EmptyName
  | InvalidMaxAge
  | InvalidSameSite
  | InvalidDate
  | Utf8Error
deriving DecidableEq, Repr

deriving instance DecidableEq for Except

/-- `SameSite` from `same_site.rs`. -/
inductive SameSite where
  | Strict
  | Lax
  | None
deriving DecidableEq, Repr

/-- `Expiration` from `expires.rs`; the `DateTime` payload is the UTC
instant. -/
inductive Expiration where
  | Session
  | DateTime (dt : NaiveDateTime)
deriving DecidableEq, Repr

/-- `Cow<str>`: a borrowed or owned source buffer. -/
inductive Cow where
  | Borrowed (s : Str)
  | Owned (s : Str)
deriving DecidableEq, Repr

/-- The text carried by a `Cow`. -/
def Cow.text : Cow → Str
  | .Borrowed s => s
  | .Owned s => s

/-- `CookieStr` from `cookie.rs`. In Rust `Indexed` holds a byte range
into the paired source buffer; every `Indexed` value produced by the code
resolves to exactly the substring captured at construction, so the
embedding carries that substring (the range's denotation) directly. -/
inductive CookieStr where
  | Indexed (t : Str)
  | Concrete (t : Str)
deriving DecidableEq, Repr

/-- `CookieStr::as_str`: a `Concrete` value is returned as is; an `Indexed`
value is resolved against the paired source buffer (in Rust by re-slicing;
the slice equals the stored denotation). -/
def CookieStr.as_str (cs : CookieStr) (source : Option Cow) : Str :=
  match cs, source with
  | .Indexed t, _ => t
  | .Concrete t, _ => t

/-- `CookieStr::to_raw_str`: raw access succeeds only for an `Indexed`
value whose source buffer is still borrowed. -/
def CookieStr.to_raw_str (cs : CookieStr) (source : Cow) : Option Str :=
  match cs, source with
  | .Indexed t, .Borrowed _ => some t
  | .Indexed _, .Owned _ => none
  | .Concrete _, _ => none

/-- The `Cookie` record from `cookie.rs` (`max_age` is a `Duration` built
with `Duration::from_secs`, so whole seconds suffice). -/
structure Cookie where
  cookie_string : Option Cow
  name : CookieStr
  val : CookieStr
  expires : Option Expiration
  max_age : Option Nat
  domain : Option CookieStr
  path : Option CookieStr
  secure : Option Bool
  http_only : Option Bool
  same_site : Option SameSite
deriving DecidableEq, Repr

/-- Strip a single leading dot: `domain.strip_prefix(".").or(Some(domain))`. -/
def stripDot (d : Str) : Str :=
  match d with
  | '.' :: rest => rest
  | _ => d

/-- `Cookie::name()`. -/
def Cookie.getName (c : Cookie) : Str := c.name.as_str c.cookie_string

/-- `Cookie::value()`. -/
def Cookie.getValue (c : Cookie) : Str := c.val.as_str c.cookie_string

/-- `Cookie::name_raw()`. -/
def Cookie.name_raw (c : Cookie) : Option Str :=
  c.cookie_string.bind (fun s => c.name.to_raw_str s)

/-- `Cookie::value_raw()`. -/
def Cookie.value_raw (c : Cookie) : Option Str :=
  c.cookie_string.bind (fun s => c.val.to_raw_str s)

/-- `Cookie::domain()`: the normalized accessor, stripping one leading dot. -/
def Cookie.getDomain (c : Cookie) : Option Str :=
  match c.domain with
  | some dom => some (stripDot (dom.as_str c.cookie_string))
  | none => none

/-- `Cookie::domain_raw()`: note that the source also strips a single
leading dot from the raw slice. -/
def Cookie.domain_raw (c : Cookie) : Option Str :=
  match c.domain, c.cookie_string with
  | some dom, some source =>
    match dom.to_raw_str source with
    | some d => some (stripDot d)
    | none => none
  | _, _ => none

/-- `Cookie::path()`. -/
def Cookie.getPath (c : Cookie) : Option Str :=
  match c.path with
  | some p => some (p.as_str c.cookie_string)
  | none => none

/-- `Cookie::path_raw()`. -/
def Cookie.path_raw (c : Cookie) : Option Str :=
  match c.path, c.cookie_string with
  | some p, some source => p.to_raw_str source
  | _, _ => none

/-- `Cookie::set_name`: the field becomes `Concrete`. -/
def Cookie.set_name (c : Cookie) (s : Str) : Cookie := { c with name := .Concrete s }

/-- `Cookie::set_value`. -/
def Cookie.set_value (c : Cookie) (s : Str) : Cookie := { c with val := .Concrete s }

/-- `Cookie::set_domain`. -/
def Cookie.set_domain (c : Cookie) (s : Str) : Cookie :=
  { c with domain := some (.Concrete s) }

/-- `Cookie::set_path`. -/
def Cookie.set_path (c : Cookie) (s : Str) : Cookie :=
  { c with path := some (.Concrete s) }

/-- `Cookie::set_expires`. -/
def Cookie.set_expires (c : Cookie) (v : Option Expiration) : Cookie :=
  { c with expires := v }

/-- `Cookie::set_max_age`. -/
def Cookie.set_max_age (c : Cookie) (v : Option Nat) : Cookie :=
  { c with max_age := v }

/-- `Cookie::set_secure`. -/
def Cookie.set_secure (c : Cookie) (v : Option Bool) : Cookie :=
  { c with secure := v }

/-- `Cookie::set_http_only`. -/
def Cookie.set_http_only (c : Cookie) (v : Option Bool) : Cookie :=
  { c with http_only := v }

/-- `Cookie::set_same_site`. -/
def Cookie.set_same_site (c : Cookie) (v : Option SameSite) : Cookie :=
  { c with same_site := v }

/-- `CookieBuilder::new` from `builder.rs`: fields start `Concrete`, no
source buffer. -/
def CookieBuilder.new (name val : Str) : Cookie :=
  { cookie_string := none, name := .Concrete name, val := .Concrete val,
    expires := none, max_age := none, domain := none, path := none,
    secure := none, http_only := none, same_site := none }

/-- `CookieBuilder::secure` (the builder delegates to `set_secure`). -/
def CookieBuilder.secure (c : Cookie) (v : Bool) : Cookie := c.set_secure (some v)

/-- Debug rendering of `SameSite` (`write!("{:?}", same_site)`). -/
def sameSiteDbg : SameSite → Str
  | .Strict => str "Strict"
  | .Lax => str "Lax"
  | .None => str "None"

/-- Zero-padded two-digit number (`%d`, `%H`, `%M`, `%S` formatting). -/
def pad2 (n : Nat) : Str := if n < 10 then '0' :: natRepr n else natRepr n

/-- Four-digit zero-padded rendering of a natural number. -/
def pad4 (n : Nat) : Str :=
  let s := natRepr n
  List.replicate (4 - s.length) '0' ++ s

/-- `%Y` formatting of a (possibly negative) year. -/
def fmtYear (y : Int) : Str :=
  if y < 0 then '-' :: pad4 y.natAbs else pad4 y.toNat

/-- `date.format("%a, %d %b %Y %H:%M:%S")` from the `Display`
implementation: the weekday is computed from the date. -/
def formatDate (dt : NaiveDateTime) : Str :=
  wdShortNames.getD (weekdayOf dt.year dt.month dt.day) [] ++ str ", " ++
    pad2 dt.day ++ str " " ++ monShortNames.getD (dt.month - 1) [] ++ str " " ++
    fmtYear dt.year ++ str " " ++ pad2 dt.hour ++ str ":" ++ pad2 dt.minute ++
    str ":" ++ pad2 dt.second

/-- `impl Display for Cookie` from `cookie.rs`: `name=value`, then the
attribute segments in the source's fixed order; a `Session` expiration
writes nothing, and `Secure`/`HttpOnly` are written only when `Some(true)`. -/
def Cookie.display (c : Cookie) : Str :=
  c.name.as_str c.cookie_string ++ str "=" ++ c.val.as_str c.cookie_string ++
    (match c.expires with
     | some (.DateTime d) => str "; Expires=" ++ formatDate d ++ str " GMT"
     | some .Session => []
     | none => []) ++
    (match c.max_age with
     | some m => str "; Max-Age=" ++ natRepr m
     | none => []) ++
    (match c.domain with
     | some dom => str "; Domain=" ++ dom.as_str c.cookie_string
     | none => []) ++
    (match c.path with
     | some p => str "; Path=" ++ p.as_str c.cookie_string
     | none => []) ++
    (if c.secure = some true then str "; Secure" else []) ++
    (if c.http_only = some true then str "; HttpOnly" else []) ++
    (match c.same_site with
     | some ss => str "; SameSite=" ++ sameSiteDbg ss
     | none => [])

/-! ## Parser (`src/parse.rs`) -/

/-- `parse_date_with_all_formats`: strip everything from the first literal
`GMT` on, trim, then try the four formats in order; all failing yields
`InvalidDate`. -/
def parse_date_with_all_formats (s : Str) : Except ParseError NaiveDateTime :=
  let date := trim (beforeSubstr (str "GMT") s)
  match parseFromStr fmt1Items date <|> parseFromStr fmt2Items date <|>
      parseFromStr fmt3Items date <|> parseFromStr fmt4Items date with
  | some d => .ok d
  | none => .error .InvalidDate

/-- Rust `max_age.starts_with('-')`. -/
def startsNeg (s : Str) : Bool :=
  match s with
  | '-' :: _ => true
  | _ => false

/-- Rust `if is_negatove { &max_age[1..] } else { max_age }`. -/
def stripNeg (s : Str) : Str := if startsNeg s then s.tail else s

/-- One iteration of the attribute loop in `parse_inner`: split the token
at its first `=` into a trimmed key and optional trimmed value, then
dispatch on the key. -/
def applyAttr (c : Cookie) (attr : Str) : Except ParseError Cookie :=
  let kv : Str × Option Str :=
    match splitFirst '=' attr with
    | some (k, v) => (trim k, some (trim v))
    | none => (trim attr, none)
  let key := kv.1
  let val := kv.2
  if key = str "Expires" then
    match val with
    | some ex => (parse_date_with_all_formats ex).map
        (fun d => { c with expires := some (.DateTime d) })
    | none => .ok c
  else if key = str "Max-Age" then
    match val with
    | some ma =>
      let isNeg : Bool := startsNeg ma
      let ma2 := stripNeg ma
      if ¬ (ma2.all isDigitCh) then .ok c
      else if isNeg then .ok { c with max_age := some 0 }
      else .ok { c with max_age := some ((parseU64 ma2).getD u64Max) }
    | none => .ok c
  else if key = str "Domain" then
    match val with
    | some d => .ok { c with domain := some (.Indexed d) }
    | none => .ok c
  else if key = str "Path" then
    match val with
    | some p => .ok { c with path := some (.Indexed p) }
    | none => .ok c
  else if key = str "Secure" then .ok { c with secure := some true }
  else if key = str "HttpOnly" then .ok { c with http_only := some true }
  else if key = str "SameSite" then
    match val with
    | some ss =>
      if eqIgnoreCase ss (str "strict") then .ok { c with same_site := some .Strict }
      else if eqIgnoreCase ss (str "lax") then .ok { c with same_site := some .Lax }
      else if eqIgnoreCase ss (str "none") then .ok { c with same_site := some .None }
      else .ok c
    | none => .ok c
  else .ok c

/-- The attribute loop: process tokens left to right, propagating the one
attribute-level error (`InvalidDate`) immediately. -/
def processAttrs (c : Cookie) : List Str → Except ParseError Cookie
  | [] => .ok c
  | a :: rest =>
    match applyAttr c a with
    | .ok c2 => processAttrs c2 rest
    | .error e => .error e

/-- `parse_inner`: split on `;`, take the first token as `name=value`
(`MissingPair` when it has no `=`, `EmptyName` when the trimmed name is
empty), then run the attribute loop over the remaining tokens. The
name/value/domain/path captures are `Indexed` references into the input. -/
def parse_inner (s : Str) : Except ParseError Cookie :=
  let parts := splitChar ';' s
  let name_val := parts.headD []
  let attrs := parts.tail
  match splitFirst '=' name_val with
  | none => .error .MissingPair
  | some (n0, v0) =>
    let name := trim n0
    if name = [] then .error .EmptyName
    else
      processAttrs
        { cookie_string := none, name := .Indexed name, val := .Indexed (trim v0),
          expires := none, max_age := none, domain := none, path := none,
          secure := none, http_only := none, same_site := none }
        attrs

/-- `parse_cookie`: run `parse_inner` and attach the source buffer. -/
def parse_cookie (cw : Cow) : Except ParseError Cookie :=
  (parse_inner cw.text).map (fun c => { c with cookie_string := some cw })

/-- `Cookie::parse`: parsing a `&str` attaches a borrowed source buffer. -/
def Cookie.parse (s : Str) : Except ParseError Cookie :=
  parse_cookie (.Borrowed s)

/-- The trimmed key of an attribute token, exactly as the attribute loop
computes it: the part before the token's first `=` (or the whole token),
trimmed. -/
def keyOf (a : Str) : Str :=
  match splitFirst '=' a with
  | some kv => trim kv.1
  | none => trim a

/-- The attribute keys the dispatch in `parse_inner` recognizes. -/
def recognizedKeys : List Str :=
  [str "Expires", str "Max-Age", str "Domain", str "Path",
   str "Secure", str "HttpOnly", str "SameSite"]

/-- Modelled from the spec: the canonical serialized output of section 6,
`name=value[; Expires=<RFC1123 date> GMT][; Max-Age=<seconds>]
[; Domain=<domain>][; Path=<path>][; Secure][; HttpOnly][; SameSite=<...>]`,
a fixed-order list of optional attribute segments; per the spec, the
session expiration renders nothing and a tri-state boolean renders only
when true (a false-equivalent form is never emitted). -/
def specCanonicalSegs (c : Cookie) : List (Option Str) :=
  [ (match c.expires with
     | some (.DateTime d) => some (str "; Expires=" ++ formatDate d ++ str " GMT")
     | _ => none),
    c.max_age.map (fun m => str "; Max-Age=" ++ natRepr m),
    c.domain.map (fun dom => str "; Domain=" ++ dom.as_str c.cookie_string),
    c.path.map (fun p => str "; Path=" ++ p.as_str c.cookie_string),
    (if c.secure = some true then some (str "; Secure") else none),
    (if c.http_only = some true then some (str "; HttpOnly") else none),
    c.same_site.map (fun ss => str "; SameSite=" ++ sameSiteDbg ss) ]

/-- Modelled from the spec: assemble the canonical wire string from the
fixed-order segment list (each segment carries its `"; "` separator). -/
def specCanonical (c : Cookie) : Str :=
  c.getName ++ str "=" ++ c.getValue ++ List.flatten (specCanonicalSegs c).reduceOption

/-- Success test for `Except`. -/
def Except.okTest : Except ParseError Cookie → Bool
  | .ok _ => true
  | .error _ => false

/-- The cookie record `parse_inner` starts the attribute loop from, for a
given trimmed name and value. -/
def baseCookie (n v : Str) : Cookie :=
  { cookie_string := none, name := .Indexed n, val := .Indexed v,
    expires := none, max_age := none, domain := none, path := none,
    secure := none, http_only := none, same_site := none }

/-- Body (text after the `;`) of the serialized `Max-Age` token. -/
def maToks : Option Nat → List Str
  | some m => [str " Max-Age=" ++ natRepr m]
  | none => []

/-- Body of the serialized `Domain` token. -/
def domToks : Option Str → List Str
  | some d => [str " Domain=" ++ d]
  | none => []

/-- Body of the serialized `Path` token. -/
def pthToks : Option Str → List Str
  | some p => [str " Path=" ++ p]
  | none => []

/-- Body of the serialized `Secure` token (emitted only for `some true`). -/
def secToks (o : Option Bool) : List Str :=
  if o = some true then [str " Secure"] else []

/-- Body of the serialized `HttpOnly` token (emitted only for `some true`). -/
def hoToks (o : Option Bool) : List Str :=
  if o = some true then [str " HttpOnly"] else []

/-- Body of the serialized `SameSite` token. -/
def ssToks : Option SameSite → List Str
  | some ss => [str " SameSite=" ++ sameSiteDbg ss]
  | none => []

/-- Concatenate token bodies, each preceded by its `;` separator. -/
def segString (toks : List Str) : Str :=
  List.flatten (toks.map (fun t => ';' :: t))

/-- The parsed entity of the round-trip witness input
`"a=b; Max-Age=5; Domain=.x.com; Path=/; Secure; HttpOnly; SameSite=Lax"`. -/
def c2WitnessCookie : Cookie :=
  ⟨some (.Borrowed (str "a=b; Max-Age=5; Domain=.x.com; Path=/; Secure; HttpOnly; SameSite=Lax")),
    .Indexed (str "a"), .Indexed (str "b"), none, some 5,
    some (.Indexed (str ".x.com")), some (.Indexed (str "/")), some true,
    some true, some .Lax⟩

/-- `parse_inner` expressed over the already-split token list; equal to
`parse_inner` by definitional unfolding, used to reason about the split. -/
def parse_inner_parts (parts : List Str) : Except ParseError Cookie :=
  match splitFirst '=' (parts.headD []) with
  | none => .error .MissingPair
  | some (n0, v0) =>
    let name := trim n0
    if name = [] then .error .EmptyName
    else processAttrs (baseCookie name (trim v0)) parts.tail

/-- The shape invariant every cookie reachable by the attribute loop
satisfies: captured domain/path values are trimmed `Indexed` slices free of
`;`, the tri-state booleans are never `some false`, a stored max-age fits in
`u64`, and a stored expiration is always an absolute instant. -/
def AttrInv (c : Cookie) : Prop :=
  (c.domain = none ∨ ∃ d, c.domain = some (.Indexed d) ∧ trim d = d ∧ ';' ∉ d) ∧
  (c.path = none ∨ ∃ p, c.path = some (.Indexed p) ∧ trim p = p ∧ ';' ∉ p) ∧
  (c.secure = none ∨ c.secure = some true) ∧
  (c.http_only = none ∨ c.http_only = some true) ∧
  (c.max_age = none ∨ ∃ m, c.max_age = some m ∧ m ≤ u64Max) ∧
  (c.expires = none ∨ ∃ d, c.expires = some (.DateTime d))

/-! ## Support lemmas: splitting -/

theorem splitChar_ne_nil (sep : Char) (s : Str) : splitChar sep s ≠ [] := by
  induction s with
  | nil => simp [splitChar]
  | cons c cs ih =>
    simp only [splitChar]
    split
    · simp
    · split
      · simp
      · simp

theorem sep_not_mem_of_mem_splitChar {sep : Char} {s t : Str}
    (h : t ∈ splitChar sep s) : sep ∉ t := by
  induction s generalizing t with
  | nil =>
    simp only [splitChar, List.mem_singleton] at h
    subst h; simp
  | cons c cs ih =>
    simp only [splitChar] at h
    by_cases hc : c = sep
    · rw [if_pos hc] at h
      rcases List.mem_cons.mp h with h1 | h1
      · subst h1; simp
      · exact ih h1
    · rw [if_neg hc] at h
      rcases hsp : splitChar sep cs with _ | ⟨t0, ts⟩
      · exact absurd hsp (splitChar_ne_nil sep cs)
      · rw [hsp] at h
        rcases List.mem_cons.mp h with h1 | h1
        · subst h1
          intro hmem
          rcases List.mem_cons.mp hmem with h2 | h2
          · exact hc h2.symm
          · exact ih (hsp ▸ List.mem_cons_self t0 ts) h2
        · exact ih (hsp ▸ List.mem_cons_of_mem t0 h1)

theorem splitChar_of_not_mem {sep : Char} {s : Str} (h : sep ∉ s) :
    splitChar sep s = [s] := by
  induction s with
  | nil => rfl
  | cons c cs ih =>
    have hc : c ≠ sep := fun he => h (he ▸ List.mem_cons_self c cs)
    have hcs : sep ∉ cs := fun hm => h (List.mem_cons_of_mem c hm)
    simp only [splitChar, if_neg hc, ih hcs]

theorem splitChar_append_cons {sep : Char} {a : Str} (b : Str) (h : sep ∉ a) :
    splitChar sep (a ++ sep :: b) = a :: splitChar sep b := by
  induction a with
  | nil => simp [splitChar]
  | cons x xs ih =>
    have hx : x ≠ sep := fun he => h (he ▸ List.mem_cons_self x xs)
    have hxs : sep ∉ xs := fun hm => h (List.mem_cons_of_mem x hm)
    simp only [List.cons_append, splitChar, if_neg hx]
    have ih2 : splitChar sep (xs.append (sep :: b)) = xs :: splitChar sep b := ih hxs
    rw [ih2]

theorem splitFirst_eq_none_iff (sep : Char) (s : Str) :
    splitFirst sep s = none ↔ sep ∉ s := by
  induction s with
  | nil => simp [splitFirst]
  | cons c cs ih =>
    simp only [splitFirst]
    by_cases hc : c = sep
    · subst hc; simp
    · rw [if_neg hc]
      constructor
      · intro h hm
        have hn : splitFirst sep cs = none := by
          rcases hsp : splitFirst sep cs with _ | p
          · rfl
          · rw [hsp] at h; simp [Option.map] at h
        rcases List.mem_cons.mp hm with h1 | h1
        · exact hc h1.symm
        · exact (ih.mp hn) h1
      · intro h
        have hn : splitFirst sep cs = none :=
          ih.mpr (fun hm => h (List.mem_cons_of_mem c hm))
        rw [hn]; rfl

theorem splitFirst_sound {sep : Char} {s a b : Str}
    (h : splitFirst sep s = some (a, b)) : a ++ sep :: b = s ∧ sep ∉ a := by
  induction s generalizing a b with
  | nil => simp [splitFirst] at h
  | cons c cs ih =>
    simp only [splitFirst] at h
    by_cases hc : c = sep
    · rw [if_pos hc] at h
      injection h with h
      injection h with h1 h2
      subst h1; subst h2; subst hc
      exact ⟨by simp, by simp⟩
    · rw [if_neg hc] at h
      rcases hsp : splitFirst sep cs with _ | ⟨a', b'⟩ <;> rw [hsp] at h
      · simp [Option.map] at h
      · simp only [Option.map] at h
        injection h with h
        injection h with h1 h2
        subst h1; subst h2
        obtain ⟨he, hnm⟩ := ih hsp
        refine ⟨by simp [he], ?_⟩
        intro hm
        rcases List.mem_cons.mp hm with h1 | h1
        · exact hc h1.symm
        · exact hnm h1

theorem splitFirst_append {sep : Char} {a : Str} (b : Str) (h : sep ∉ a) :
    splitFirst sep (a ++ sep :: b) = some (a, b) := by
  induction a with
  | nil => simp [splitFirst]
  | cons x xs ih =>
    have hx : x ≠ sep := fun he => h (he ▸ List.mem_cons_self x xs)
    have hxs : sep ∉ xs := fun hm => h (List.mem_cons_of_mem x hm)
    simp only [List.cons_append, splitFirst, if_neg hx]
    have ih2 : splitFirst sep (xs.append (sep :: b)) = some (xs, b) := ih hxs
    rw [ih2]; rfl

/-! ## Support lemmas: trimming -/

theorem mem_of_mem_dropWhile {p : Char → Bool} {l : Str} {c : Char}
    (h : c ∈ l.dropWhile p) : c ∈ l := by
  induction l with
  | nil => simp at h
  | cons a l ih =>
    rw [List.dropWhile_cons] at h
    by_cases hp : p a = true
    · rw [if_pos hp] at h
      exact List.mem_cons_of_mem a (ih h)
    · rw [if_neg hp] at h
      exact h

theorem mem_of_mem_trim {s : Str} {c : Char} (h : c ∈ trim s) : c ∈ s := by
  unfold trim trimR trimL at h
  have h1 := List.mem_reverse.mpr h
  rw [List.reverse_reverse] at h1
  have h2 := mem_of_mem_dropWhile h1
  exact mem_of_mem_dropWhile (List.mem_reverse.mp h2)

theorem dropWhile_idem (p : Char → Bool) (l : Str) :
    (l.dropWhile p).dropWhile p = l.dropWhile p := by
  induction l with
  | nil => rfl
  | cons a l ih =>
    rw [List.dropWhile_cons]
    by_cases hp : p a = true
    · rw [if_pos hp]; exact ih
    · rw [if_neg hp, List.dropWhile_cons, if_neg hp]

theorem trimR_idem (s : Str) : trimR (trimR s) = trimR s := by
  unfold trimR
  rw [List.reverse_reverse, dropWhile_idem]

theorem dropWhile_head {p : Char → Bool} {l t : Str} {c : Char}
    (h : l.dropWhile p = c :: t) : p c = false := by
  induction l with
  | nil => simp at h
  | cons a l ih =>
    rw [List.dropWhile_cons] at h
    by_cases hp : p a = true
    · rw [if_pos hp] at h; exact ih h
    · rw [if_neg hp] at h
      injection h with h1 _
      subst h1
      exact Bool.not_eq_true _ ▸ hp

theorem dropWhile_append_singleton (p : Char → Bool) (xs : Str) (c : Char) :
    (xs ++ [c]).dropWhile p =
      if xs.dropWhile p = [] then (if p c then [] else [c])
      else xs.dropWhile p ++ [c] := by
  induction xs with
  | nil => simp [List.dropWhile_cons]
  | cons a xs ih =>
    rw [List.cons_append, List.dropWhile_cons, List.dropWhile_cons]
    by_cases hp : p a = true
    · rw [if_pos hp, if_pos hp, ih]
    · rw [if_neg hp, if_neg hp, if_neg (by simp), List.cons_append]

theorem trimR_cons_shape (c : Char) (t : Str) :
    trimR (c :: t) = [] ∨ ∃ t2, trimR (c :: t) = c :: t2 := by
  unfold trimR
  rw [show (c :: t : Str).reverse = t.reverse ++ [c] from by simp,
    dropWhile_append_singleton]
  by_cases h0 : t.reverse.dropWhile isWs = []
  · rw [if_pos h0]
    by_cases hc : isWs c = true
    · rw [if_pos hc]; exact Or.inl rfl
    · rw [if_neg hc]; exact Or.inr ⟨[], rfl⟩
  · rw [if_neg h0]
    exact Or.inr ⟨(t.reverse.dropWhile isWs).reverse.tail? |>.getD [] |> fun _ =>
      (t.reverse.dropWhile isWs).reverse, by simp⟩

theorem trimL_cons_of_not_ws {c : Char} (t : Str) (hc : isWs c = false) :
    trimL (c :: t) = c :: t := by
  unfold trimL
  rw [List.dropWhile_cons, if_neg (by simp [hc])]

theorem trim_idem (s : Str) : trim (trim s) = trim s := by
  unfold trim
  rcases hy : trimL s with _ | ⟨c, t⟩
  · simp [trimR, trimL]
  · have hc : isWs c = false := dropWhile_head (p := isWs) (l := s) hy
    rcases trimR_cons_shape c t with h0 | ⟨t2, h2⟩
    · rw [h0]; simp [trimR, trimL]
    · rw [h2, trimL_cons_of_not_ws t2 hc, ← h2, trimR_idem]

theorem dropWhile_eq_self_of_no_sat {p : Char → Bool} {l : Str}
    (h : ∀ c ∈ l, p c = false) : l.dropWhile p = l := by
  induction l with
  | nil => rfl
  | cons a l ih =>
    rw [List.dropWhile_cons, if_neg (by simp [h a (List.mem_cons_self a l)])]

theorem trim_eq_self_of_no_ws {s : Str} (h : ∀ c ∈ s, isWs c = false) :
    trim s = s := by
  unfold trim trimL trimR
  rw [dropWhile_eq_self_of_no_sat h,
    dropWhile_eq_self_of_no_sat (fun c hc => h c (List.mem_reverse.mp hc)),
    List.reverse_reverse]

/-! ## Support lemmas: decimal printing and parsing -/

theorem isDigit_digitChar (d : Nat) : isDigitCh (digitChar d) = true := by
  unfold digitChar
  split <;> decide

theorem toNat_digitChar {d : Nat} (h : d < 10) : (digitChar d).toNat - 48 = d := by
  interval_cases d <;> decide

theorem mem_natReprAux_digit {fuel n : Nat} {c : Char}
    (h : c ∈ natReprAux fuel n) : isDigitCh c = true := by
  induction fuel generalizing n with
  | zero => simp [natReprAux] at h
  | succ fuel ih =>
    rw [natReprAux] at h
    by_cases hn : n < 10
    · rw [if_pos hn] at h
      rcases List.mem_singleton.mp h with h1
      exact h1 ▸ isDigit_digitChar n
    · rw [if_neg hn] at h
      rcases List.mem_append.mp h with h1 | h1
      · exact ih h1
      · exact (List.mem_singleton.mp h1) ▸ isDigit_digitChar (n % 10)

theorem mem_natRepr_digit {n : Nat} {c : Char} (h : c ∈ natRepr n) :
    isDigitCh c = true := mem_natReprAux_digit h

theorem natReprAux_ne_nil {fuel n : Nat} (h : 0 < fuel) :
    natReprAux fuel n ≠ [] := by
  rcases fuel with _ | fuel
  · exact absurd h (by simp)
  · rw [natReprAux]
    by_cases hn : n < 10
    · rw [if_pos hn]; simp
    · rw [if_neg hn]; simp

theorem natRepr_ne_nil (n : Nat) : natRepr n ≠ [] :=
  natReprAux_ne_nil (Nat.succ_pos n)

theorem foldl_natReprAux {fuel : Nat} : ∀ {n a : Nat}, n < fuel →
    List.foldl (fun a c => 10 * a + (c.toNat - 48)) a (natReprAux fuel n) =
      a * 10 ^ (natReprAux fuel n).length + n := by
  induction fuel with
  | zero => intro n a h; exact absurd h (Nat.not_lt_zero n)
  | succ fuel ih =>
    intro n a h
    rw [natReprAux]
    by_cases hn : n < 10
    · rw [if_pos hn]
      simp [toNat_digitChar hn, Nat.mul_comm]
    · rw [if_neg hn]
      have h10 : n / 10 < fuel :=
        Nat.lt_of_lt_of_le (Nat.div_lt_self (by omega) (by omega)) (by omega)
      rw [List.foldl_append, ih h10]
      simp only [List.foldl_cons, List.foldl_nil, List.length_append,
        List.length_singleton]
      rw [toNat_digitChar (Nat.mod_lt n (by omega))]
      rw [Nat.mul_add, Nat.mul_comm 10 (a * 10 ^ (natReprAux fuel (n / 10)).length)]
      rw [Nat.mul_assoc, ← Nat.pow_succ]
      rw [Nat.add_assoc]
      congr 1
      omega

theorem digitsVal_natRepr (n : Nat) : digitsVal (natRepr n) = n := by
  unfold digitsVal natRepr
  rw [foldl_natReprAux (Nat.lt_succ_self n)]
  simp

theorem parseU64_natRepr {m : Nat} (h : m ≤ u64Max) :
    parseU64 (natRepr m) = some m := by
  unfold parseU64
  rw [if_neg (natRepr_ne_nil m), digitsVal_natRepr, if_pos h]

/-! ## Support lemmas: the parser -/

theorem pd_error {s : Str} {e : ParseError}
    (h : parse_date_with_all_formats s = .error e) : e = .InvalidDate := by
  simp only [parse_date_with_all_formats] at h
  split at h
  · exact absurd h (by simp)
  · injection h with h1
    exact h1.symm

theorem exceptMap_error {f : NaiveDateTime → Cookie}
    {x : Except ParseError NaiveDateTime} {e : ParseError}
    (h : x.map f = .error e) : x = .error e := by
  cases x with
  | ok d => exact absurd h (by simp [Except.map])
  | error e2 =>
    simp only [Except.map] at h
    injection h with h1
    rw [h1]

set_option maxHeartbeats 1000000 in
theorem applyAttr_error {c : Cookie} {a : Str} {e : ParseError}
    (h : applyAttr c a = .error e) : e = .InvalidDate := by
  unfold applyAttr at h
  rcases hsp : splitFirst '=' a with _ | ⟨k, v⟩ <;> rw [hsp] at h <;> dsimp only at h <;>
    split_ifs at h <;>
    first
      | exact absurd h (by simp)
      | exact pd_error (exceptMap_error h)

theorem processAttrs_error {l : List Str} : ∀ {c : Cookie} {e : ParseError},
    processAttrs c l = .error e → e = .InvalidDate := by
  induction l with
  | nil => intro c e h; exact absurd h (by simp [processAttrs])
  | cons a rest ih =>
    intro c e h
    rw [processAttrs] at h
    cases ha : applyAttr c a with
    | ok c2 =>
      rw [ha] at h
      exact ih h
    | error e2 =>
      rw [ha] at h
      have h2 : Except.error (α := Cookie) e2 = .error e := h
      injection h2 with h1
      exact h1 ▸ applyAttr_error ha

theorem processAttrs_append (l1 l2 : List Str) : ∀ c : Cookie,
    processAttrs c (l1 ++ l2) =
      match processAttrs c l1 with
      | .ok c2 => processAttrs c2 l2
      | .error e => .error e := by
  induction l1 with
  | nil => intro c; rfl
  | cons a rest ih =>
    intro c
    rw [List.cons_append, processAttrs, processAttrs]
    cases ha : applyAttr c a with
    | ok c2 => exact ih c2
    | error e2 => rfl

theorem parseU64_le {s : Str} {m : Nat} (h : parseU64 s = some m) : m ≤ u64Max := by
  unfold parseU64 at h
  split at h
  · exact absurd h (by simp)
  · split at h
    · injection h with h1
      subst h1
      assumption
    · exact absurd h (by simp)

theorem parseU64_getD_le (s : Str) : (parseU64 s).getD u64Max ≤ u64Max := by
  rcases hp : parseU64 s with _ | m
  · simp
  · simpa using parseU64_le hp

set_option maxHeartbeats 1000000 in
theorem applyAttr_ok_fields {c : Cookie} {a : Str} {c2 : Cookie}
    (h : applyAttr c a = .ok c2) :
    c2.name = c.name ∧ c2.val = c.val ∧ c2.cookie_string = c.cookie_string ∧
    c2.secure = (if keyOf a = str "Secure" then some true else c.secure) ∧
    c2.http_only = (if keyOf a = str "HttpOnly" then some true else c.http_only) ∧
    (c2.expires = c.expires ∨ ∃ d, c2.expires = some (.DateTime d)) ∧
    (c2.max_age = c.max_age ∨ ∃ m, c2.max_age = some m ∧ m ≤ u64Max) ∧
    (c2.domain = c.domain ∨
      ∃ kv, splitFirst '=' a = some kv ∧ c2.domain = some (.Indexed (trim kv.2))) ∧
    (c2.path = c.path ∨
      ∃ kv, splitFirst '=' a = some kv ∧ c2.path = some (.Indexed (trim kv.2))) := by
  unfold applyAttr at h
  unfold keyOf
  rcases hsp : splitFirst '=' a with _ | ⟨k, v⟩ <;> rw [hsp] at h <;> dsimp only at h ⊢
  · split_ifs at h <;> (injection h with hc2; subst hc2) <;> simp_all +decide
  · split_ifs at h <;>
      first
        | (injection h with hc2; subst hc2; simp_all +decide [parseU64_getD_le])
        | (rcases hpd : parse_date_with_all_formats (trim v) with d | e2 <;>
             rw [hpd] at h <;> simp only [Except.map] at h <;>
             first
               | (injection h with hc2; subst hc2; simp_all +decide)
               | exact absurd h (by simp))

theorem parse_inner_ok {s : Str} {c : Cookie} (h : parse_inner s = .ok c) :
    ∃ nv, splitFirst '=' ((splitChar ';' s).headD []) = some nv ∧ trim nv.1 ≠ [] ∧
      processAttrs (baseCookie (trim nv.1) (trim nv.2)) ((splitChar ';' s).tail) =
        .ok c := by
  unfold parse_inner at h
  dsimp only at h
  rcases hsp : splitFirst '=' ((splitChar ';' s).headD []) with _ | ⟨n0, v0⟩ <;>
    rw [hsp] at h <;> dsimp only at h
  · exact absurd h (by simp)
  · split_ifs at h with he
    · exact ⟨(n0, v0), rfl, he, h⟩

theorem parse_inner_cases (s : Str) :
    (∃ c, parse_inner s = .ok c) ∨ parse_inner s = .error .MissingPair ∨
      parse_inner s = .error .EmptyName ∨ parse_inner s = .error .InvalidDate := by
  unfold parse_inner
  dsimp only
  rcases hsp : splitFirst '=' ((splitChar ';' s).headD []) with _ | ⟨n0, v0⟩ <;>
    dsimp only
  · exact Or.inr (Or.inl rfl)
  · split_ifs with he
    · exact Or.inr (Or.inr (Or.inl rfl))
    · cases hp : processAttrs (baseCookie (trim n0) (trim v0))
          ((splitChar ';' s).tail) with
      | ok c => exact Or.inl ⟨c, hp⟩
      | error e =>
        rw [processAttrs_error hp] at hp
        exact Or.inr (Or.inr (Or.inr hp))

theorem parse_inner_missing_iff (s : Str) :
    parse_inner s = .error .MissingPair ↔
      splitFirst '=' ((splitChar ';' s).headD []) = none := by
  unfold parse_inner
  dsimp only
  rcases hsp : splitFirst '=' ((splitChar ';' s).headD []) with _ | ⟨n0, v0⟩ <;>
    dsimp only
  · simp
  · simp only [iff_false, ne_eq, reduceCtorEq]
    split_ifs with he
    · simp
    · intro hcon
      have := processAttrs_error hcon
      simp at this

theorem parse_ok_iff {s : Str} {c : Cookie} :
    Cookie.parse s = .ok c ↔
      ∃ c0, parse_inner s = .ok c0 ∧
        c = { c0 with cookie_string := some (.Borrowed s) } := by
  unfold Cookie.parse parse_cookie
  cases hp : parse_inner (Cow.text (.Borrowed s)) with
  | ok c0 =>
    constructor
    · intro h
      simp only [Except.map] at h
      injection h with h1
      exact ⟨c0, hp, h1.symm⟩
    · intro ⟨c1, hp1, hc⟩
      rw [show parse_inner s = parse_inner (Cow.text (.Borrowed s)) from rfl] at hp1
      rw [hp] at hp1
      injection hp1 with h1
      subst h1
      simp only [Except.map]
      rw [hc]
  | error e =>
    constructor
    · intro h
      exact absurd h (by simp [Except.map])
    · intro ⟨c1, hp1, hc⟩
      rw [show parse_inner s = parse_inner (Cow.text (.Borrowed s)) from rfl] at hp1
      rw [hp] at hp1
      exact absurd hp1 (by simp)

theorem parse_error_iff {s : Str} {e : ParseError} :
    Cookie.parse s = .error e ↔ parse_inner s = .error e := by
  unfold Cookie.parse parse_cookie
  cases hp : parse_inner (Cow.text (.Borrowed s)) with
  | ok c0 =>
    rw [show parse_inner s = parse_inner (Cow.text (.Borrowed s)) from rfl, hp]
    simp [Except.map]
  | error e2 =>
    rw [show parse_inner s = parse_inner (Cow.text (.Borrowed s)) from rfl, hp]
    simp [Except.map]

theorem applyAttr_inv {c c2 : Cookie} {a : Str} (ha : ';' ∉ a)
    (h : applyAttr c a = .ok c2) (hc : AttrInv c) : AttrInv c2 := by
  obtain ⟨hname, hval, hsrc, hsec, hho, hexp, hma, hdom, hpath⟩ := applyAttr_ok_fields h
  obtain ⟨hcd, hcp, hcs, hch, hcm, hce⟩ := hc
  refine ⟨?_, ?_, ?_, ?_, ?_, ?_⟩
  · rcases hdom with h1 | ⟨⟨k, v⟩, hkv, h1⟩
    · rw [h1]; exact hcd
    · right
      refine ⟨trim v, h1, trim_idem _, ?_⟩
      intro hm
      obtain ⟨heq, _⟩ := splitFirst_sound hkv
      exact ha (heq ▸ List.mem_append.mpr
        (Or.inr (List.mem_cons_of_mem _ (mem_of_mem_trim hm))))
  · rcases hpath with h1 | ⟨⟨k, v⟩, hkv, h1⟩
    · rw [h1]; exact hcp
    · right
      refine ⟨trim v, h1, trim_idem _, ?_⟩
      intro hm
      obtain ⟨heq, _⟩ := splitFirst_sound hkv
      exact ha (heq ▸ List.mem_append.mpr
        (Or.inr (List.mem_cons_of_mem _ (mem_of_mem_trim hm))))
  · rw [hsec]
    by_cases hk : keyOf a = str "Secure"
    · rw [if_pos hk]; exact Or.inr rfl
    · rw [if_neg hk]; exact hcs
  · rw [hho]
    by_cases hk : keyOf a = str "HttpOnly"
    · rw [if_pos hk]; exact Or.inr rfl
    · rw [if_neg hk]; exact hch
  · rcases hma with h1 | ⟨m, h1, h2⟩
    · rw [h1]; exact hcm
    · exact Or.inr ⟨m, h1, h2⟩
  · rcases hexp with h1 | ⟨d, h1⟩
    · rw [h1]; exact hce
    · exact Or.inr ⟨d, h1⟩

theorem processAttrs_inv {l : List Str} (hl : ∀ a ∈ l, ';' ∉ a) :
    ∀ {c c2 : Cookie}, processAttrs c l = .ok c2 → AttrInv c →
      AttrInv c2 ∧ c2.name = c.name ∧ c2.val = c.val ∧
        c2.cookie_string = c.cookie_string := by
  induction l with
  | nil =>
    intro c c2 h hc
    rw [processAttrs] at h
    injection h with h1
    subst h1
    exact ⟨hc, rfl, rfl, rfl⟩
  | cons a rest ih =>
    intro c c2 h hc
    rw [processAttrs] at h
    cases ha : applyAttr c a with
    | error e => rw [ha] at h; exact absurd h (by simp)
    | ok c1 =>
      rw [ha] at h
      have hfields := applyAttr_ok_fields ha
      have h1 := applyAttr_inv (hl a (List.mem_cons_self a rest)) ha hc
      obtain ⟨h2, hn, hv, hs⟩ :=
        ih (fun x hx => hl x (List.mem_cons_of_mem a hx)) h h1
      exact ⟨h2, by rw [hn, hfields.1], by rw [hv, hfields.2.1],
        by rw [hs, hfields.2.2.1]⟩

theorem processAttrs_tristate {l : List Str} : ∀ {c c2 : Cookie},
    processAttrs c l = .ok c2 →
    c2.secure =
      (if l.any (fun a => keyOf a == str "Secure") then some true else c.secure) ∧
    c2.http_only =
      (if l.any (fun a => keyOf a == str "HttpOnly") then some true
        else c.http_only) := by
  induction l with
  | nil =>
    intro c c2 h
    rw [processAttrs] at h
    injection h with h1
    subst h1
    simp
  | cons a rest ih =>
    intro c c2 h
    rw [processAttrs] at h
    cases ha : applyAttr c a with
    | error e => rw [ha] at h; exact absurd h (by simp)
    | ok c1 =>
      rw [ha] at h
      have hf := applyAttr_ok_fields ha
      obtain ⟨hs, hh⟩ := ih h
      constructor
      · rw [hs, hf.2.2.2.1]
        by_cases hk : keyOf a = str "Secure"
        · rw [if_pos hk]
          cases hr : rest.any (fun a => keyOf a == str "Secure") <;>
            simp [List.any_cons, hr, hk]
        · rw [if_neg hk]
          cases hr : rest.any (fun a => keyOf a == str "Secure") <;>
            simp [List.any_cons, hr, hk]
      · rw [hh, hf.2.2.2.2.1]
        by_cases hk : keyOf a = str "HttpOnly"
        · rw [if_pos hk]
          cases hr : rest.any (fun a => keyOf a == str "HttpOnly") <;>
            simp [List.any_cons, hr, hk]
        · rw [if_neg hk]
          cases hr : rest.any (fun a => keyOf a == str "HttpOnly") <;>
            simp [List.any_cons, hr, hk]

theorem head_splitChar_no_sep (sep : Char) (s : Str) :
    sep ∉ (splitChar sep s).headD [] := by
  rcases hsp : splitChar sep s with _ | ⟨t, ts⟩
  · exact absurd hsp (splitChar_ne_nil sep s)
  · exact sep_not_mem_of_mem_splitChar (hsp ▸ List.mem_cons_self t ts)

theorem tail_splitChar_no_sep (sep : Char) (s : Str) :
    ∀ a ∈ (splitChar sep s).tail, sep ∉ a := by
  intro a ha
  exact sep_not_mem_of_mem_splitChar (List.mem_of_mem_tail ha)

theorem parse_ok_main {s : Str} {c : Cookie} (h : Cookie.parse s = .ok c) :
    c.cookie_string = some (.Borrowed s) ∧
    (∃ n, c.name = .Indexed n ∧ trim n = n ∧ n ≠ [] ∧ '=' ∉ n ∧ ';' ∉ n) ∧
    (∃ v, c.val = .Indexed v ∧ trim v = v ∧ ';' ∉ v) ∧ AttrInv c := by
  obtain ⟨c0, hp0, hc⟩ := parse_ok_iff.mp h
  obtain ⟨⟨n0, v0⟩, hnv, hne, hproc⟩ := parse_inner_ok hp0
  have hfirst : ';' ∉ (splitChar ';' s).headD [] := head_splitChar_no_sep ';' s
  obtain ⟨heq, hneq⟩ := splitFirst_sound hnv
  have hn0 : ';' ∉ n0 := fun hm => hfirst (heq ▸ List.mem_append.mpr (Or.inl hm))
  have hv0 : ';' ∉ v0 := fun hm =>
    hfirst (heq ▸ List.mem_append.mpr (Or.inr (List.mem_cons_of_mem _ hm)))
  have hbase : AttrInv (baseCookie (trim n0) (trim v0)) := by
    refine ⟨Or.inl rfl, Or.inl rfl, Or.inl rfl, Or.inl rfl, Or.inl rfl, Or.inl rfl⟩
  obtain ⟨hinv, hname, hval, _⟩ :=
    processAttrs_inv (tail_splitChar_no_sep ';' s) hproc hbase
  subst hc
  refine ⟨rfl, ?_, ?_, ?_⟩
  · exact ⟨trim n0, by rw [show ({ c0 with cookie_string := some (.Borrowed s) } :
        Cookie).name = c0.name from rfl, hname]; rfl, trim_idem n0, hne,
      fun hm => hneq (mem_of_mem_trim hm), fun hm => hn0 (mem_of_mem_trim hm)⟩
  · exact ⟨trim v0, by rw [show ({ c0 with cookie_string := some (.Borrowed s) } :
        Cookie).val = c0.val from rfl, hval]; rfl, trim_idem v0,
      fun hm => hv0 (mem_of_mem_trim hm)⟩
  · exact hinv

theorem startsNeg_false_of_digits {s : Str} (h : s.all isDigitCh = true) :
    startsNeg s = false := by
  unfold startsNeg
  split
  · rw [List.all_cons, Bool.and_eq_true] at h
    exact absurd h.1 (by decide)
  · rfl

theorem parseU64_overflow {s : Str} (h : u64Max < digitsVal s) :
    parseU64 s = none := by
  unfold parseU64
  split
  · rfl
  · rw [if_neg (by omega)]

theorem applyAttr_maxage_neg {c : Cookie} {a k v ds : Str}
    (hsp : splitFirst '=' a = some (k, v)) (hk : trim k = str "Max-Age")
    (htv : trim v = '-' :: ds) (hall : ds.all isDigitCh = true) :
    applyAttr c a = .ok { c with max_age := some 0 } := by
  unfold applyAttr
  rw [hsp]
  dsimp only
  rw [hk, if_neg (by decide), if_pos rfl, htv]
  simp [startsNeg, stripNeg, hall]

theorem applyAttr_maxage_bad {c : Cookie} {a k v : Str}
    (hsp : splitFirst '=' a = some (k, v)) (hk : trim k = str "Max-Age")
    (hbad : (stripNeg (trim v)).all isDigitCh = false) :
    applyAttr c a = .ok c := by
  unfold applyAttr
  rw [hsp]
  dsimp only
  rw [hk, if_neg (by decide), if_pos rfl]
  simp [hbad]

theorem applyAttr_maxage_overflow {c : Cookie} {a k v : Str}
    (hsp : splitFirst '=' a = some (k, v)) (hk : trim k = str "Max-Age")
    (hall : (trim v).all isDigitCh = true) (hover : u64Max < digitsVal (trim v)) :
    applyAttr c a = .ok { c with max_age := some u64Max } := by
  unfold applyAttr
  rw [hsp]
  dsimp only
  rw [hk, if_neg (by decide), if_pos rfl]
  have hsn : startsNeg (trim v) = false := startsNeg_false_of_digits hall
  have hstrip : stripNeg (trim v) = trim v := by
    unfold stripNeg
    rw [hsn]
    simp
  rw [hstrip, hsn]
  simp [hall, parseU64_overflow hover]

theorem applyAttr_maxage_empty {c : Cookie} {a k v : Str}
    (hsp : splitFirst '=' a = some (k, v)) (hk : trim k = str "Max-Age")
    (htv : trim v = []) :
    applyAttr c a = .ok { c with max_age := some u64Max } := by
  unfold applyAttr
  rw [hsp]
  dsimp only
  rw [hk, if_neg (by decide), if_pos rfl, htv]
  simp [startsNeg, stripNeg, parseU64]

theorem applyAttr_maxage_digits {c : Cookie} {a k v : Str}
    (hsp : splitFirst '=' a = some (k, v)) (hk : trim k = str "Max-Age")
    (hall : (trim v).all isDigitCh = true) (hle : digitsVal (trim v) ≤ u64Max)
    (hne : trim v ≠ []) :
    applyAttr c a = .ok { c with max_age := some (digitsVal (trim v)) } := by
  unfold applyAttr
  rw [hsp]
  dsimp only
  rw [hk, if_neg (by decide), if_pos rfl]
  have hsn : startsNeg (trim v) = false := startsNeg_false_of_digits hall
  have hstrip : stripNeg (trim v) = trim v := by
    unfold stripNeg
    rw [hsn]
    simp
  rw [hstrip, hsn]
  simp only [hall, Bool.not_true, Bool.false_eq_true, if_false, if_true]
  rw [show parseU64 (trim v) = some (digitsVal (trim v)) from by
    unfold parseU64; rw [if_neg hne, if_pos hle]]
  rfl

theorem applyAttr_unrecognized {c : Cookie} {a : Str}
    (h : keyOf a ∉ recognizedKeys) : applyAttr c a = .ok c := by
  have h1 : keyOf a ≠ str "Expires" := fun he => h (by rw [he]; decide)
  have h2 : keyOf a ≠ str "Max-Age" := fun he => h (by rw [he]; decide)
  have h3 : keyOf a ≠ str "Domain" := fun he => h (by rw [he]; decide)
  have h4 : keyOf a ≠ str "Path" := fun he => h (by rw [he]; decide)
  have h5 : keyOf a ≠ str "Secure" := fun he => h (by rw [he]; decide)
  have h6 : keyOf a ≠ str "HttpOnly" := fun he => h (by rw [he]; decide)
  have h7 : keyOf a ≠ str "SameSite" := fun he => h (by rw [he]; decide)
  unfold applyAttr
  unfold keyOf at h1 h2 h3 h4 h5 h6 h7
  rcases hsp : splitFirst '=' a with _ | ⟨k, v⟩ <;> rw [hsp] at h1 h2 h3 h4 h5 h6 h7 <;>
    dsimp only at h1 h2 h3 h4 h5 h6 h7 ⊢ <;>
    rw [if_neg h1, if_neg h2, if_neg h3, if_neg h4, if_neg h5, if_neg h6, if_neg h7]

theorem applyAttr_bad_samesite {c : Cookie} {a k v : Str}
    (hsp : splitFirst '=' a = some (k, v)) (hk : trim k = str "SameSite")
    (h1 : eqIgnoreCase (trim v) (str "strict") = false)
    (h2 : eqIgnoreCase (trim v) (str "lax") = false)
    (h3 : eqIgnoreCase (trim v) (str "none") = false) :
    applyAttr c a = .ok c := by
  unfold applyAttr
  rw [hsp]
  dsimp only
  rw [hk]
  rw [if_neg (by decide), if_neg (by decide), if_neg (by decide),
    if_neg (by decide), if_neg (by decide), if_neg (by decide), if_pos rfl]
  simp [h1, h2, h3]

/-! ## Claim theorems -/

/-- C1: the spec's end-to-end example claims the canonical cookie string
parses successfully; in the code, `parse_date_with_all_formats` strips
everything from the literal `GMT` on before matching, yet `FMT1`, `FMT2`
and `FMT4` still end in a literal `GMT` (and `FMT3` has a different field
order), so no format matches and `Cookie::parse` returns `InvalidDate`. -/
theorem c1_parse_fails_invalid_date :
    Cookie.parse (str "sessionId=abc123; Expires=Tue, 21 Oct 2025 07:28:00 GMT; Max-Age=3600; Domain=example.com; Path=/; Secure; HttpOnly; SameSite=Strict") =
      .error .InvalidDate := by
  decide

/-- C3 counterexample: the claim says `domain_raw()` returns the captured
value dot included; on `"a=b; Domain=.example.com"` the code's
`domain_raw()` returns `"example.com"`, not `".example.com"`. -/
theorem c3_domain_raw_counterexample :
    (Cookie.parse (str "a=b; Domain=.example.com")).map Cookie.domain_raw =
      .ok (some (str "example.com")) ∧
    str "example.com" ≠ str ".example.com" := by
  exact ⟨by decide, by decide⟩

/-- C3 (amended): for every parsed cookie with a captured domain, the
normalized accessor `domain()` strips one leading dot, and `domain_raw()`
returns the captured value with one leading dot stripped as well (the
source applies `strip_prefix(".")` in both accessors). -/
theorem c3_domain_accessors_amended (s : Str) (c : Cookie) (d : Str)
    (h : Cookie.parse s = .ok c) (hd : c.domain = some (.Indexed d)) :
    c.getDomain = some (stripDot d) ∧ c.domain_raw = some (stripDot d) := by
  have hsrc : c.cookie_string = some (.Borrowed s) := (parse_ok_main h).1
  constructor
  · unfold Cookie.getDomain
    rw [hd]
    rfl
  · unfold Cookie.domain_raw
    rw [hd, hsrc]
    rfl

/-- C3 witness: the amended theorem applied to `"a=b; Domain=.example.com"`. -/
theorem c3_domain_accessors_amended_witness :
    Cookie.getDomain
        ⟨some (.Borrowed (str "a=b; Domain=.example.com")), .Indexed (str "a"),
          .Indexed (str "b"), none, none, some (.Indexed (str ".example.com")),
          none, none, none, none⟩ =
      some (str "example.com") ∧
    Cookie.domain_raw
        ⟨some (.Borrowed (str "a=b; Domain=.example.com")), .Indexed (str "a"),
          .Indexed (str "b"), none, none, some (.Indexed (str ".example.com")),
          none, none, none, none⟩ =
      some (str "example.com") :=
  c3_domain_accessors_amended (str "a=b; Domain=.example.com")
    ⟨some (.Borrowed (str "a=b; Domain=.example.com")), .Indexed (str "a"),
      .Indexed (str "b"), none, none, some (.Indexed (str ".example.com")),
      none, none, none, none⟩
    (str ".example.com") (by decide) (by decide)

/-- C4 counterexample: the claim says `MissingPair` occurs iff the whole
buffer has no `=`; the input `"abc;x=y"` contains `=` yet fails with
`MissingPair`, because the split on `;` happens first and only the first
token is searched for `=`. -/
theorem c4_missing_pair_counterexample :
    Cookie.parse (str "abc;x=y") = .error .MissingPair ∧ '=' ∈ str "abc;x=y" := by
  exact ⟨by decide, by decide⟩

/-- C4 (amended): `Cookie::parse` returns `MissingPair` iff the first
`;`-delimited token contains no `=`; on success the name/value split is
taken at the first `=` of that first token, and the value is the whole
remainder of the token even when it contains further `=` characters. -/
theorem c4_missing_pair_amended (s : Str) :
    (Cookie.parse s = .error .MissingPair ↔
      '=' ∉ (splitChar ';' s).headD []) ∧
    (∀ nv (c : Cookie), splitFirst '=' ((splitChar ';' s).headD []) = some nv →
      Cookie.parse s = .ok c →
      c.name = .Indexed (trim nv.1) ∧ c.val = .Indexed (trim nv.2)) := by
  constructor
  · rw [parse_error_iff, parse_inner_missing_iff, splitFirst_eq_none_iff]
  · intro nv c hnv h
    obtain ⟨c0, hp0, hc⟩ := parse_ok_iff.mp h
    obtain ⟨nv2, hnv2, hne, hproc⟩ := parse_inner_ok hp0
    rw [hnv] at hnv2
    injection hnv2 with h1
    subst h1
    have hbase : AttrInv (baseCookie (trim nv.1) (trim nv.2)) :=
      ⟨Or.inl rfl, Or.inl rfl, Or.inl rfl, Or.inl rfl, Or.inl rfl, Or.inl rfl⟩
    obtain ⟨_, hname, hval, _⟩ :=
      processAttrs_inv (tail_splitChar_no_sep ';' s) hproc hbase
    subst hc
    exact ⟨by rw [show ({ c0 with cookie_string := some (.Borrowed s) } :
        Cookie).name = c0.name from rfl, hname]; rfl,
      by rw [show ({ c0 with cookie_string := some (.Borrowed s) } :
        Cookie).val = c0.val from rfl, hval]; rfl⟩

/-- C4 witness: the amended theorem applied to `"a=b=c;x"`: the value is
the whole remainder `b=c` of the first token. -/
theorem c4_missing_pair_amended_witness :
    Cookie.name
        ⟨some (.Borrowed (str "a=b=c;x")), .Indexed (str "a"),
          .Indexed (str "b=c"), none, none, none, none, none, none, none⟩ =
      .Indexed (trim (str "a")) ∧
    Cookie.val
        ⟨some (.Borrowed (str "a=b=c;x")), .Indexed (str "a"),
          .Indexed (str "b=c"), none, none, none, none, none, none, none⟩ =
      .Indexed (trim (str "b=c")) :=
  (c4_missing_pair_amended (str "a=b=c;x")).2 (str "a", str "b=c") _
    (by decide) (by decide)

/-- C5: Max-Age semantics of the attribute loop: a leading `-` with an
all-digit remainder clamps to zero; any non-digit after the optional
leading minus leaves the field untouched and the token is dropped; an
all-digit value whose magnitude exceeds `u64::MAX` clamps to the maximum;
and the three spec examples evaluate accordingly end to end. -/
theorem c5_max_age_semantics :
    (∀ (c : Cookie) (a k v ds : Str), splitFirst '=' a = some (k, v) →
        trim k = str "Max-Age" → trim v = '-' :: ds → ds.all isDigitCh = true →
        applyAttr c a = .ok { c with max_age := some 0 }) ∧
    (∀ (c : Cookie) (a k v : Str), splitFirst '=' a = some (k, v) →
        trim k = str "Max-Age" → (stripNeg (trim v)).all isDigitCh = false →
        applyAttr c a = .ok c) ∧
    (∀ (c : Cookie) (a k v : Str), splitFirst '=' a = some (k, v) →
        trim k = str "Max-Age" → (trim v).all isDigitCh = true →
        u64Max < digitsVal (trim v) →
        applyAttr c a = .ok { c with max_age := some u64Max }) ∧
    (Cookie.parse (str "a=b; Max-Age=-100")).map Cookie.max_age = .ok (some 0) ∧
    (Cookie.parse (str "a=b; Max-Age=99999999999999999999")).map Cookie.max_age =
      .ok (some u64Max) ∧
    (Cookie.parse (str "a=b; Max-Age=abc")).map Cookie.max_age = .ok none :=
  ⟨fun _ _ _ _ _ h1 h2 h3 h4 => applyAttr_maxage_neg h1 h2 h3 h4,
    fun _ _ _ _ h1 h2 h3 => applyAttr_maxage_bad h1 h2 h3,
    fun _ _ _ _ h1 h2 h3 h4 => applyAttr_maxage_overflow h1 h2 h3 h4,
    by decide, by decide, by decide⟩

/-- C5 witness: the zero-clamp case of the theorem at a concrete token. -/
theorem c5_max_age_semantics_witness :
    applyAttr (baseCookie (str "a") (str "b")) (str " Max-Age=-5") =
      .ok { baseCookie (str "a") (str "b") with max_age := some 0 } :=
  c5_max_age_semantics.1 _ _ (str " Max-Age") (str "-5") (str "5")
    (by decide) (by decide) (by decide) (by decide)

/-- C7: every string-supplying setter stores a `Concrete` value, and the
corresponding raw accessor returns `none` from then on, whatever the
entity's source buffer. -/
theorem c7_setters_concrete (c : Cookie) (x : Str) :
    ((c.set_name x).name = .Concrete x ∧ (c.set_name x).name_raw = none) ∧
    ((c.set_value x).val = .Concrete x ∧ (c.set_value x).value_raw = none) ∧
    ((c.set_domain x).domain = some (.Concrete x) ∧
      (c.set_domain x).domain_raw = none) ∧
    ((c.set_path x).path = some (.Concrete x) ∧ (c.set_path x).path_raw = none) := by
  refine ⟨⟨rfl, ?_⟩, ⟨rfl, ?_⟩, ⟨rfl, ?_⟩, ⟨rfl, ?_⟩⟩ <;>
    rcases c with ⟨cs, n, v, exp, ma, dom, pth, sec, ho, ss⟩ <;>
    rcases cs with _ | src <;>
    first
      | rfl
      | (rcases src with s0 | s0 <;> rfl)

/-- C10: a `Max-Age` token whose value trims to the empty string sets
`max_age` to the maximum representable duration (`u64::MAX` seconds): the
all-digit check passes vacuously and the failed integer parse falls
through to the overflow clamp. -/
theorem c10_empty_max_age :
    (∀ (c : Cookie) (a k v : Str), splitFirst '=' a = some (k, v) →
        trim k = str "Max-Age" → trim v = [] →
        applyAttr c a = .ok { c with max_age := some u64Max }) ∧
    (Cookie.parse (str "a=b; Max-Age=")).map Cookie.max_age = .ok (some u64Max) ∧
    (Cookie.parse (str "a=b; Max-Age=   ")).map Cookie.max_age =
      .ok (some u64Max) :=
  ⟨fun _ _ _ _ h1 h2 h3 => applyAttr_maxage_empty h1 h2 h3, by decide, by decide⟩

/-- C10 witness: the general clause of the theorem at the token
`" Max-Age="`. -/
theorem c10_empty_max_age_witness :
    applyAttr (baseCookie (str "a") (str "b")) (str " Max-Age=") =
      .ok { baseCookie (str "a") (str "b") with max_age := some u64Max } :=
  c10_empty_max_age.1 _ _ (str " Max-Age") [] (by decide) (by decide) (by decide)

/-- C6: every parse either succeeds or fails with exactly `MissingPair`,
`EmptyName` or `InvalidDate`; an attribute token with an unrecognized key
is dropped leaving the cookie unchanged, as are an invalid `SameSite`
value and a non-numeric `Max-Age`; the `Foo=Bar` example keeps the
recognized fields intact. -/
theorem c6_error_kinds :
    (∀ s : Str, (∃ c, Cookie.parse s = .ok c) ∨
      Cookie.parse s = .error .MissingPair ∨
      Cookie.parse s = .error .EmptyName ∨
      Cookie.parse s = .error .InvalidDate) ∧
    (∀ (c : Cookie) (a : Str), keyOf a ∉ recognizedKeys → applyAttr c a = .ok c) ∧
    (∀ (c : Cookie) (a k v : Str), splitFirst '=' a = some (k, v) →
      trim k = str "SameSite" → eqIgnoreCase (trim v) (str "strict") = false →
      eqIgnoreCase (trim v) (str "lax") = false →
      eqIgnoreCase (trim v) (str "none") = false → applyAttr c a = .ok c) ∧
    (∀ (c : Cookie) (a k v : Str), splitFirst '=' a = some (k, v) →
      trim k = str "Max-Age" → (stripNeg (trim v)).all isDigitCh = false →
      applyAttr c a = .ok c) ∧
    (Cookie.parse (str "a=b; Foo=Bar; Secure")).map
        (fun c => (c.getName, c.getValue, c.secure, c.http_only)) =
      .ok (str "a", str "b", some true, none) := by
  refine ⟨?_, fun c a h => applyAttr_unrecognized h,
    fun _ _ _ _ h1 h2 h3 h4 h5 => applyAttr_bad_samesite h1 h2 h3 h4 h5,
    fun _ _ _ _ h1 h2 h3 => applyAttr_maxage_bad h1 h2 h3, by decide⟩
  intro s
  rcases parse_inner_cases s with ⟨c0, hok⟩ | herr | herr | herr
  · exact Or.inl ⟨{ c0 with cookie_string := some (.Borrowed s) },
      parse_ok_iff.mpr ⟨c0, hok, rfl⟩⟩
  · exact Or.inr (Or.inl (parse_error_iff.mpr herr))
  · exact Or.inr (Or.inr (Or.inl (parse_error_iff.mpr herr)))
  · exact Or.inr (Or.inr (Or.inr (parse_error_iff.mpr herr)))

/-- C6 witness: the unrecognized-key clause of the theorem applied to the
token `" Foo=Bar"`. -/
theorem c6_error_kinds_witness :
    applyAttr (baseCookie (str "a") (str "b")) (str " Foo=Bar") =
      .ok (baseCookie (str "a") (str "b")) :=
  c6_error_kinds.2.1 (baseCookie (str "a") (str "b")) (str " Foo=Bar") (by decide)

/-- C8 counterexample: the claim says each present (set) field is appended
iff it is set; a cookie built with `secure(false)` has its tri-state set,
yet `Display` emits no `"; Secure"` segment. -/
theorem c8_secure_false_counterexample :
    (CookieBuilder.secure (CookieBuilder.new (str "n") (str "v")) false).secure =
      some false ∧
    Cookie.display
        (CookieBuilder.secure (CookieBuilder.new (str "n") (str "v")) false) =
      str "n=v" ∧
    containsSub (str "; Secure")
        (Cookie.display
          (CookieBuilder.secure (CookieBuilder.new (str "n") (str "v")) false)) =
      false := by
  exact ⟨by decide, by decide, by decide⟩

/-- C8 (amended): serialization emits `name=value` and then the attribute
segments in the fixed order Expires, Max-Age, Domain, Path, Secure,
HttpOnly, SameSite, each appended iff set, except that a `Session`
expiration renders nothing and the tri-state `Secure`/`HttpOnly` render
only when set to true: `Display` coincides with the spec's canonical
template on every cookie entity. -/
theorem c8_display_canonical (c : Cookie) : c.display = specCanonical c := by
  rcases c with ⟨cs, n, v, exp, ma, dom, pth, sec, ho, ss⟩
  unfold Cookie.display specCanonical specCanonicalSegs Cookie.getName
    Cookie.getValue
  rcases exp with _ | exp
  case' some => rcases exp with _ | d
  all_goals rcases ma with _ | m
  all_goals rcases dom with _ | dom
  all_goals rcases pth with _ | pth
  all_goals rcases sec with _ | sec
  all_goals try rcases sec with _ | _
  all_goals rcases ho with _ | ho
  all_goals try rcases ho with _ | _
  all_goals rcases ss with _ | ss
  all_goals simp [List.reduceOption, List.flatten, List.append_assoc]

/-- C9: for every parsed cookie, `secure` (resp. `http_only`) is
`some true` exactly when a token whose key is `Secure` (resp. `HttpOnly`)
appears in the attribute stream, with or without a trailing value, and is
`none` otherwise; a parse never produces `some false`. -/
theorem c9_tristate_secure_http_only (s : Str) (c : Cookie)
    (h : Cookie.parse s = .ok c) :
    c.secure = (if (splitChar ';' s).tail.any (fun a => keyOf a == str "Secure")
        then some true else none) ∧
    c.http_only =
      (if (splitChar ';' s).tail.any (fun a => keyOf a == str "HttpOnly")
        then some true else none) ∧
    c.secure ≠ some false ∧ c.http_only ≠ some false := by
  obtain ⟨c0, hp0, hc⟩ := parse_ok_iff.mp h
  obtain ⟨nv, hnv, hne, hproc⟩ := parse_inner_ok hp0
  obtain ⟨hs, hh⟩ := processAttrs_tristate hproc
  have hcs : c.secure = c0.secure := by rw [hc]
  have hch : c.http_only = c0.http_only := by rw [hc]
  rw [hcs, hch, hs, hh]
  refine ⟨rfl, rfl, ?_, ?_⟩
  · cases (splitChar ';' s).tail.any (fun a => keyOf a == str "Secure") <;>
      simp [baseCookie]
  · cases (splitChar ';' s).tail.any (fun a => keyOf a == str "HttpOnly") <;>
      simp [baseCookie]

/-- C9 witness: the theorem applied to `"a=b; Secure"`. -/
theorem c9_tristate_secure_http_only_witness :
    Cookie.secure
        ⟨some (.Borrowed (str "a=b; Secure")), .Indexed (str "a"),
          .Indexed (str "b"), none, none, none, none, some true, none, none⟩ =
      (if (splitChar ';' (str "a=b; Secure")).tail.any
          (fun a => keyOf a == str "Secure") then some true else none) ∧
    Cookie.http_only
        ⟨some (.Borrowed (str "a=b; Secure")), .Indexed (str "a"),
          .Indexed (str "b"), none, none, none, none, some true, none, none⟩ =
      (if (splitChar ';' (str "a=b; Secure")).tail.any
          (fun a => keyOf a == str "HttpOnly") then some true else none) ∧
    Cookie.secure
        ⟨some (.Borrowed (str "a=b; Secure")), .Indexed (str "a"),
          .Indexed (str "b"), none, none, none, none, some true, none, none⟩ ≠
      some false ∧
    Cookie.http_only
        ⟨some (.Borrowed (str "a=b; Secure")), .Indexed (str "a"),
          .Indexed (str "b"), none, none, none, none, some true, none, none⟩ ≠
      some false :=
  c9_tristate_secure_http_only (str "a=b; Secure")
    ⟨some (.Borrowed (str "a=b; Secure")), .Indexed (str "a"),
      .Indexed (str "b"), none, none, none, none, some true, none, none⟩
    (by decide)

/-! ## Support lemmas: the serialize/re-parse round trip -/

theorem digit_not_ws {c : Char} (h : isDigitCh c = true) : isWs c = false := by
  by_cases h1 : c = ' '
  · subst h1; exact absurd h (by decide)
  · by_cases h2 : c = '\t'
    · subst h2; exact absurd h (by decide)
    · by_cases h3 : c = '\n'
      · subst h3; exact absurd h (by decide)
      · by_cases h4 : c = '\r'
        · subst h4; exact absurd h (by decide)
        · simp [isWs, h1, h2, h3, h4]

theorem digit_ne_semi {c : Char} (h : isDigitCh c = true) : c ≠ ';' :=
  fun he => absurd (he ▸ h) (by decide)

theorem natRepr_all_digits (n : Nat) : (natRepr n).all isDigitCh = true :=
  List.all_eq_true.mpr (fun _ hc => mem_natRepr_digit hc)

theorem trim_natRepr (n : Nat) : trim (natRepr n) = natRepr n :=
  trim_eq_self_of_no_ws (fun _ hc => digit_not_ws (mem_natRepr_digit hc))

theorem semi_not_mem_natRepr (n : Nat) : ';' ∉ natRepr n :=
  fun hm => digit_ne_semi (mem_natRepr_digit hm) rfl

theorem segMaxAge (c : Cookie) (m : Nat) (hle : m ≤ u64Max) :
    applyAttr c (str " Max-Age=" ++ natRepr m) = .ok { c with max_age := some m } := by
  unfold applyAttr
  rw [show (str " Max-Age=" ++ natRepr m : Str) = str " Max-Age" ++ '=' :: natRepr m
      from rfl,
    splitFirst_append _ (by decide)]
  dsimp only
  rw [show trim (str " Max-Age") = str "Max-Age" from by decide,
    if_neg (by decide), if_pos rfl, trim_natRepr]
  have hsn : startsNeg (natRepr m) = false :=
    startsNeg_false_of_digits (natRepr_all_digits m)
  have hstrip : stripNeg (natRepr m) = natRepr m := by
    unfold stripNeg
    rw [hsn]
    simp
  rw [hstrip, hsn]
  simp [natRepr_all_digits, parseU64_natRepr hle]

theorem segDomainTok (c : Cookie) (d : Str) (htd : trim d = d) :
    applyAttr c (str " Domain=" ++ d) = .ok { c with domain := some (.Indexed d) } := by
  unfold applyAttr
  rw [show (str " Domain=" ++ d : Str) = str " Domain" ++ '=' :: d from rfl,
    splitFirst_append _ (by decide)]
  dsimp only
  rw [show trim (str " Domain") = str "Domain" from by decide,
    if_neg (by decide), if_neg (by decide), if_pos rfl, htd]

theorem segPathTok (c : Cookie) (p : Str) (htp : trim p = p) :
    applyAttr c (str " Path=" ++ p) = .ok { c with path := some (.Indexed p) } := by
  unfold applyAttr
  rw [show (str " Path=" ++ p : Str) = str " Path" ++ '=' :: p from rfl,
    splitFirst_append _ (by decide)]
  dsimp only
  rw [show trim (str " Path") = str "Path" from by decide,
    if_neg (by decide), if_neg (by decide), if_neg (by decide), if_pos rfl, htp]

theorem segSecureTok (c : Cookie) :
    applyAttr c (str " Secure") = .ok { c with secure := some true } := rfl

theorem segHttpOnlyTok (c : Cookie) :
    applyAttr c (str " HttpOnly") = .ok { c with http_only := some true } := rfl

theorem segSameSiteTok (c : Cookie) (ss : SameSite) :
    applyAttr c (str " SameSite=" ++ sameSiteDbg ss) =
      .ok { c with same_site := some ss } := by
  cases ss <;> rfl

theorem procCons {c c1 c2 : Cookie} {t : Str} {ts : List Str}
    (h1 : applyAttr c t = .ok c1) (h2 : processAttrs c1 ts = .ok c2) :
    processAttrs c (t :: ts) = .ok c2 := by
  rw [processAttrs, h1]
  exact h2

theorem procMa (c : Cookie) (o : Option Nat) (hle : ∀ m, o = some m → m ≤ u64Max) :
    processAttrs c (maToks o) =
      .ok { c with max_age := o.elim c.max_age some } := by
  cases o with
  | none => rfl
  | some m => exact procCons (segMaxAge c m (hle m rfl)) rfl

theorem procDom (c : Cookie) (o : Option Str) (hd : ∀ d, o = some d → trim d = d) :
    processAttrs c (domToks o) =
      .ok { c with domain := o.elim c.domain (fun d => some (.Indexed d)) } := by
  cases o with
  | none => rfl
  | some d => exact procCons (segDomainTok c d (hd d rfl)) rfl

theorem procPth (c : Cookie) (o : Option Str) (hp : ∀ p, o = some p → trim p = p) :
    processAttrs c (pthToks o) =
      .ok { c with path := o.elim c.path (fun p => some (.Indexed p)) } := by
  cases o with
  | none => rfl
  | some p => exact procCons (segPathTok c p (hp p rfl)) rfl

theorem procSec (c : Cookie) (o : Option Bool) :
    processAttrs c (secToks o) =
      .ok { c with secure := (if o = some true then some true else c.secure) } := by
  rcases o with _ | b
  · rfl
  · cases b
    · rfl
    · exact procCons (segSecureTok c) rfl

theorem procHo (c : Cookie) (o : Option Bool) :
    processAttrs c (hoToks o) =
      .ok { c with http_only := (if o = some true then some true else c.http_only) } := by
  rcases o with _ | b
  · rfl
  · cases b
    · rfl
    · exact procCons (segHttpOnlyTok c) rfl

theorem procSs (c : Cookie) (o : Option SameSite) :
    processAttrs c (ssToks o) =
      .ok { c with same_site := o.elim c.same_site some } := by
  cases o with
  | none => rfl
  | some ss => exact procCons (segSameSiteTok c ss) rfl

theorem procAll (c : Cookie) (ma : Option Nat) (dom pth : Option Str)
    (sec ho : Option Bool) (ss : Option SameSite)
    (hma : ∀ m, ma = some m → m ≤ u64Max)
    (hd : ∀ d, dom = some d → trim d = d)
    (hp : ∀ p, pth = some p → trim p = p) :
    processAttrs c
        (maToks ma ++ (domToks dom ++ (pthToks pth ++
          (secToks sec ++ (hoToks ho ++ ssToks ss))))) =
      .ok { c with
        max_age := ma.elim c.max_age some,
        domain := dom.elim c.domain (fun d => some (.Indexed d)),
        path := pth.elim c.path (fun p => some (.Indexed p)),
        secure := (if sec = some true then some true else c.secure),
        http_only := (if ho = some true then some true else c.http_only),
        same_site := ss.elim c.same_site some } := by
  rw [processAttrs_append, procMa c ma hma]
  dsimp only
  rw [processAttrs_append, procDom _ dom hd]
  dsimp only
  rw [processAttrs_append, procPth _ pth hp]
  dsimp only
  rw [processAttrs_append, procSec _ sec]
  dsimp only
  rw [processAttrs_append, procHo _ ho]
  dsimp only
  rw [procSs _ ss]

theorem as_str_src (cs : CookieStr) (s1 s2 : Option Cow) :
    cs.as_str s1 = cs.as_str s2 := by
  cases cs <;> rfl

theorem segString_append (l1 l2 : List Str) :
    segString (l1 ++ l2) = segString l1 ++ segString l2 := by
  simp [segString]

theorem splitChar_segs : ∀ (toks : List Str) (first : Str), ';' ∉ first →
    (∀ t ∈ toks, ';' ∉ t) →
    splitChar ';' (first ++ segString toks) = first :: toks := by
  intro toks
  induction toks with
  | nil =>
    intro first h1 _
    rw [show segString [] = [] from rfl, List.append_nil]
    exact splitChar_of_not_mem h1
  | cons t ts ih =>
    intro first h1 h2
    rw [show segString (t :: ts) = ';' :: (t ++ segString ts) from by
      simp [segString]]
    rw [splitChar_append_cons _ h1]
    rw [ih t (h2 t (List.mem_cons_self t ts))
      (fun x hx => h2 x (List.mem_cons_of_mem t hx))]

theorem maSeg_eq (o : Option Nat) :
    (match o with
      | some m => str "; Max-Age=" ++ natRepr m
      | none => ([] : Str)) = segString (maToks o) := by
  cases o with
  | none => rfl
  | some m =>
    show str "; Max-Age=" ++ natRepr m = segString [str " Max-Age=" ++ natRepr m]
    rw [show segString [str " Max-Age=" ++ natRepr m] =
      (';' :: (str " Max-Age=" ++ natRepr m)) ++ [] from rfl, List.append_nil]
    rfl

theorem domSeg_eq (o : Option Str) :
    (match o with
      | some d => str "; Domain=" ++ d
      | none => ([] : Str)) = segString (domToks o) := by
  cases o with
  | none => rfl
  | some d =>
    show str "; Domain=" ++ d = segString [str " Domain=" ++ d]
    rw [show segString [str " Domain=" ++ d] =
      (';' :: (str " Domain=" ++ d)) ++ [] from rfl, List.append_nil]
    rfl

theorem pthSeg_eq (o : Option Str) :
    (match o with
      | some p => str "; Path=" ++ p
      | none => ([] : Str)) = segString (pthToks o) := by
  cases o with
  | none => rfl
  | some p =>
    show str "; Path=" ++ p = segString [str " Path=" ++ p]
    rw [show segString [str " Path=" ++ p] =
      (';' :: (str " Path=" ++ p)) ++ [] from rfl, List.append_nil]
    rfl

theorem secSeg_eq (o : Option Bool) :
    (if o = some true then str "; Secure" else ([] : Str)) =
      segString (secToks o) := by
  rcases o with _ | b
  · rfl
  · cases b <;> rfl

theorem hoSeg_eq (o : Option Bool) :
    (if o = some true then str "; HttpOnly" else ([] : Str)) =
      segString (hoToks o) := by
  rcases o with _ | b
  · rfl
  · cases b <;> rfl

theorem ssSeg_eq (o : Option SameSite) :
    (match o with
      | some ss => str "; SameSite=" ++ sameSiteDbg ss
      | none => ([] : Str)) = segString (ssToks o) := by
  cases o with
  | none => rfl
  | some ss => cases ss <;> rfl

theorem no_semi_maToks {o : Option Nat} {t : Str} (h : t ∈ maToks o) :
    ';' ∉ t := by
  cases o with
  | none => simp [maToks] at h
  | some m =>
    rw [show maToks (some m) = [str " Max-Age=" ++ natRepr m] from rfl,
      List.mem_singleton] at h
    subst h
    intro hm
    rcases List.mem_append.mp hm with h1 | h1
    · revert h1; decide
    · exact semi_not_mem_natRepr m h1

theorem no_semi_domToks {o : Option Str} {t : Str} (h : t ∈ domToks o)
    (hd : ∀ d, o = some d → ';' ∉ d) : ';' ∉ t := by
  cases o with
  | none => simp [domToks] at h
  | some d =>
    rw [show domToks (some d) = [str " Domain=" ++ d] from rfl,
      List.mem_singleton] at h
    subst h
    intro hm
    rcases List.mem_append.mp hm with h1 | h1
    · revert h1; decide
    · exact hd d rfl h1

theorem no_semi_pthToks {o : Option Str} {t : Str} (h : t ∈ pthToks o)
    (hp : ∀ p, o = some p → ';' ∉ p) : ';' ∉ t := by
  cases o with
  | none => simp [pthToks] at h
  | some p =>
    rw [show pthToks (some p) = [str " Path=" ++ p] from rfl,
      List.mem_singleton] at h
    subst h
    intro hm
    rcases List.mem_append.mp hm with h1 | h1
    · revert h1; decide
    · exact hp p rfl h1

theorem no_semi_secToks {o : Option Bool} {t : Str} (h : t ∈ secToks o) :
    ';' ∉ t := by
  rcases o with _ | b
  · simp [secToks] at h
  · cases b
    · simp [secToks] at h
    · rw [show secToks (some true) = [str " Secure"] from rfl,
        List.mem_singleton] at h
      subst h
      decide

theorem no_semi_hoToks {o : Option Bool} {t : Str} (h : t ∈ hoToks o) :
    ';' ∉ t := by
  rcases o with _ | b
  · simp [hoToks] at h
  · cases b
    · simp [hoToks] at h
    · rw [show hoToks (some true) = [str " HttpOnly"] from rfl,
        List.mem_singleton] at h
      subst h
      decide

theorem no_semi_ssToks {o : Option SameSite} {t : Str} (h : t ∈ ssToks o) :
    ';' ∉ t := by
  cases o with
  | none => simp [ssToks] at h
  | some ss =>
    rw [show ssToks (some ss) = [str " SameSite=" ++ sameSiteDbg ss] from rfl,
      List.mem_singleton] at h
    subst h
    cases ss <;> decide

/-- C2 counterexample: the claim fails as stated: the input
`"a=b; Expires=Tue, Oct 21 07:28:00 2025"` is accepted (via the
asctime-like format), but re-parsing its serialization fails with
`InvalidDate`, because `Display` renders the date in RFC1123 form followed
by `GMT`, which the pre-stripping date parser can no longer match. -/
theorem c2_roundtrip_counterexample :
    (Cookie.parse (str "a=b; Expires=Tue, Oct 21 07:28:00 2025")).okTest = true ∧
    (Cookie.parse (str "a=b; Expires=Tue, Oct 21 07:28:00 2025")).map
        (fun c => Cookie.parse c.display) =
      .ok (.error .InvalidDate) := by
  exact ⟨by decide, by decide⟩

set_option maxHeartbeats 1600000 in
/-- C2 (amended): for every accepted input whose parsed entity has no
expiration, serializing with `Display` and re-parsing succeeds and yields
an entity with identical normalized accessor values (name, value, domain,
path, expires, max-age, secure, http-only, same-site). An entity with an
expiration set serializes its date in a form no parsing format accepts
back, so the round trip holds exactly in the expiration-free case. -/
theorem c2_roundtrip_no_expires (s : Str) (c : Cookie)
    (h : Cookie.parse s = .ok c) (hexp : c.expires = none) :
    ∃ c2, Cookie.parse c.display = .ok c2 ∧
      c2.getName = c.getName ∧ c2.getValue = c.getValue ∧
      c2.getDomain = c.getDomain ∧ c2.getPath = c.getPath ∧
      c2.expires = c.expires ∧ c2.max_age = c.max_age ∧
      c2.secure = c.secure ∧ c2.http_only = c.http_only ∧
      c2.same_site = c.same_site := by
  obtain ⟨hsrc, ⟨n, hn, hnt, hnne, hneq, hnsemi⟩, ⟨v, hv, hvt, hvsemi⟩, hinv⟩ :=
    parse_ok_main h
  obtain ⟨hdomI, hpthI, hsecI, hhoI, hmaI, _⟩ := hinv
  have hma' : ∀ m, c.max_age = some m → m ≤ u64Max := by
    rcases hmaI with h0 | ⟨m0, hm0, hle0⟩
    · intro m hm
      rw [h0] at hm
      cases hm
    · intro m hm
      rw [hm0] at hm
      injection hm with he
      subst he
      exact hle0
  have core : ∀ domO pthO : Option Str,
      c.domain = (match domO with | some d => some (.Indexed d) | none => none) →
      (∀ d, domO = some d → trim d = d) → (∀ d, domO = some d → ';' ∉ d) →
      c.path = (match pthO with | some p => some (.Indexed p) | none => none) →
      (∀ p, pthO = some p → trim p = p) → (∀ p, pthO = some p → ';' ∉ p) →
      ∃ c2, Cookie.parse c.display = .ok c2 ∧
        c2.getName = c.getName ∧ c2.getValue = c.getValue ∧
        c2.getDomain = c.getDomain ∧ c2.getPath = c.getPath ∧
        c2.expires = c.expires ∧ c2.max_age = c.max_age ∧
        c2.secure = c.secure ∧ c2.http_only = c.http_only ∧
        c2.same_site = c.same_site := by
    intro domO pthO hcd hdt hdsemi hcp hpt hpsemi
    have hdomSeg : (match c.domain with
        | some dom => str "; Domain=" ++ dom.as_str c.cookie_string
        | none => ([] : Str)) = segString (domToks domO) := by
      cases domO with
      | none => rw [hcd]; rfl
      | some d =>
        rw [hcd]
        exact domSeg_eq (some d)
    have hpthSeg : (match c.path with
        | some p => str "; Path=" ++ p.as_str c.cookie_string
        | none => ([] : Str)) = segString (pthToks pthO) := by
      cases pthO with
      | none => rw [hcp]; rfl
      | some p =>
        rw [hcp]
        exact pthSeg_eq (some p)
    have hdisp : c.display =
        (n ++ '=' :: v) ++ segString (maToks c.max_age ++ (domToks domO ++
          (pthToks pthO ++ (secToks c.secure ++
            (hoToks c.http_only ++ ssToks c.same_site))))) := by
      unfold Cookie.display
      rw [hn, hv, hexp, maSeg_eq c.max_age, hdomSeg, hpthSeg,
        secSeg_eq c.secure, hoSeg_eq c.http_only, ssSeg_eq c.same_site]
      simp only [CookieStr.as_str, segString_append, List.append_assoc]
      rfl
    have hmem : ∀ t ∈ (maToks c.max_age ++ (domToks domO ++
        (pthToks pthO ++ (secToks c.secure ++
          (hoToks c.http_only ++ ssToks c.same_site))))), ';' ∉ t := by
      intro t ht
      rcases List.mem_append.mp ht with h1 | h1
      · exact no_semi_maToks h1
      rcases List.mem_append.mp h1 with h2 | h2
      · exact no_semi_domToks h2 hdsemi
      rcases List.mem_append.mp h2 with h3 | h3
      · exact no_semi_pthToks h3 hpsemi
      rcases List.mem_append.mp h3 with h4 | h4
      · exact no_semi_secToks h4
      rcases List.mem_append.mp h4 with h5 | h5
      · exact no_semi_hoToks h5
      · exact no_semi_ssToks h5
    have hnvsemi : ';' ∉ (n ++ '=' :: v) := by
      intro hm
      rcases List.mem_append.mp hm with h1 | h1
      · exact hnsemi h1
      rcases List.mem_cons.mp h1 with h2 | h2
      · cases h2
      · exact hvsemi h2
    have hsplit : splitChar ';' c.display =
        (n ++ '=' :: v) :: (maToks c.max_age ++ (domToks domO ++
          (pthToks pthO ++ (secToks c.secure ++
            (hoToks c.http_only ++ ssToks c.same_site))))) := by
      rw [hdisp]
      exact splitChar_segs _ _ hnvsemi hmem
    have hparse : parse_inner c.display = .ok
        { baseCookie n v with
          max_age := c.max_age.elim (baseCookie n v).max_age some,
          domain := domO.elim (baseCookie n v).domain
            (fun d => some (.Indexed d)),
          path := pthO.elim (baseCookie n v).path
            (fun p => some (.Indexed p)),
          secure := (if c.secure = some true then some true
            else (baseCookie n v).secure),
          http_only := (if c.http_only = some true then some true
            else (baseCookie n v).http_only),
          same_site := c.same_site.elim (baseCookie n v).same_site some } := by
      have h0 : parse_inner c.display =
          parse_inner_parts ((n ++ '=' :: v) :: (maToks c.max_age ++
            (domToks domO ++ (pthToks pthO ++ (secToks c.secure ++
              (hoToks c.http_only ++ ssToks c.same_site)))))) :=
        (show parse_inner c.display =
            parse_inner_parts (splitChar ';' c.display) from rfl).trans
          (congrArg parse_inner_parts hsplit)
      rw [h0]
      unfold parse_inner_parts
      simp only [List.headD_cons, List.tail_cons]
      rw [splitFirst_append _ hneq]
      dsimp only
      rw [hnt, hvt, if_neg hnne]
      exact procAll (baseCookie n v) c.max_age domO pthO c.secure c.http_only
        c.same_site hma' hdt hpt
    have e1 : c.max_age.elim (baseCookie n v).max_age some = c.max_age := by
      cases c.max_age <;> rfl
    have e2 : domO.elim (baseCookie n v).domain
        (fun d => some (CookieStr.Indexed d)) = c.domain := by
      rcases domO with _ | d0
      · exact hcd.symm
      · exact hcd.symm
    have e3 : pthO.elim (baseCookie n v).path
        (fun p => some (CookieStr.Indexed p)) = c.path := by
      rcases pthO with _ | p0
      · exact hcp.symm
      · exact hcp.symm
    have e4 : (if c.secure = some true then some true
        else (baseCookie n v).secure) = c.secure := by
      rcases hsecI with h0 | h0 <;> rw [h0] <;> rfl
    have e5 : (if c.http_only = some true then some true
        else (baseCookie n v).http_only) = c.http_only := by
      rcases hhoI with h0 | h0 <;> rw [h0] <;> rfl
    have e6 : c.same_site.elim (baseCookie n v).same_site some = c.same_site := by
      cases c.same_site <;> rfl
    rw [e1, e2, e3, e4, e5, e6] at hparse
    refine ⟨_, parse_ok_iff.mpr ⟨_, hparse, rfl⟩, ?_, ?_, ?_, ?_, ?_, ?_, ?_, ?_, ?_⟩
    · show (n : Str) = c.getName
      unfold Cookie.getName
      rw [hn]
      rfl
    · show (v : Str) = c.getValue
      unfold Cookie.getValue
      rw [hv]
      rfl
    · unfold Cookie.getDomain
      cases hdc : c.domain with
      | none => rfl
      | some dom =>
        exact congrArg some (congrArg stripDot (as_str_src dom _ c.cookie_string))
    · unfold Cookie.getPath
      cases hpc : c.path with
      | none => rfl
      | some p => exact congrArg some (as_str_src p _ c.cookie_string)
    · exact hexp.symm
    · rfl
    · rfl
    · rfl
    · rfl
  rcases hdomI with hdom0 | ⟨d, hdom0, hdt0, hdsemi0⟩ <;>
    rcases hpthI with hpth0 | ⟨p, hpth0, hpt0, hpsemi0⟩
  · exact core none none hdom0 (fun _ hd => by cases hd) (fun _ hd => by cases hd)
      hpth0 (fun _ hp => by cases hp) (fun _ hp => by cases hp)
  · exact core none (some p) hdom0 (fun _ hd => by cases hd)
      (fun _ hd => by cases hd) hpth0
      (fun p' hp' => by injection hp' with he; exact he ▸ hpt0)
      (fun p' hp' => by injection hp' with he; exact he ▸ hpsemi0)
  · exact core (some d) none hdom0
      (fun d' hd' => by injection hd' with he; exact he ▸ hdt0)
      (fun d' hd' => by injection hd' with he; exact he ▸ hdsemi0)
      hpth0 (fun _ hp => by cases hp) (fun _ hp => by cases hp)
  · exact core (some d) (some p) hdom0
      (fun d' hd' => by injection hd' with he; exact he ▸ hdt0)
      (fun d' hd' => by injection hd' with he; exact he ▸ hdsemi0)
      hpth0 (fun p' hp' => by injection hp' with he; exact he ▸ hpt0)
      (fun p' hp' => by injection hp' with he; exact he ▸ hpsemi0)

/-- C2 witness: the amended round-trip theorem applied to the accepted,
expiration-free input
`"a=b; Max-Age=5; Domain=.x.com; Path=/; Secure; HttpOnly; SameSite=Lax"`. -/
theorem c2_roundtrip_no_expires_witness :
    ∃ c2, Cookie.parse c2WitnessCookie.display = .ok c2 ∧
      c2.getName = c2WitnessCookie.getName ∧
      c2.getValue = c2WitnessCookie.getValue ∧
      c2.getDomain = c2WitnessCookie.getDomain ∧
      c2.getPath = c2WitnessCookie.getPath ∧
      c2.expires = c2WitnessCookie.expires ∧
      c2.max_age = c2WitnessCookie.max_age ∧
      c2.secure = c2WitnessCookie.secure ∧
      c2.http_only = c2WitnessCookie.http_only ∧
      c2.same_site = c2WitnessCookie.same_site :=
  c2_roundtrip_no_expires
    (str "a=b; Max-Age=5; Domain=.x.com; Path=/; Secure; HttpOnly; SameSite=Lax")
    c2WitnessCookie (by decide) (by decide)
